import Mathlib

/-!
# Verification of the asset-doctor rebalancing engine

A shallow embedding, in Lean 4, of the `assetdoctor` Python package
(`Portfolio.py`, `PriceLookup.py`, `ModelPortfolioBuilder.py`,
`PortfolioRebalancer.py`).  Python floats are modelled as rationals (`ℚ`),
Python dicts as insertion-ordered association lists, Python exceptions as
`Except String`, and the `heapq` priority queues as multisets from which the
minimum element (under the stored `(-value, ticker)` lexicographic key) is
extracted at each pop.
-/

deriving instance DecidableEq for Except

namespace AssetDoctor

/-- A ticker symbol (Python `str`). -/
abbrev Ticker := String

/-- The `Position` namedtuple of `Portfolio.py`. -/
structure Position where
  ticker : Ticker
  quantity : ℚ
  deriving DecidableEq

/-- The `Portfolio` class of `Portfolio.py`: `self.positions` is a dict
ticker → Position, modelled as an insertion-ordered association list. -/
structure Portfolio where
  positions : List Position
  deriving DecidableEq

/-- `Portfolio()` — a fresh portfolio with no positions. -/
def Portfolio.empty : Portfolio := ⟨[]⟩

/-- `Portfolio.contains_ticker`: membership of a ticker in `self.positions`. -/
def Portfolio.contains_ticker (p : Portfolio) (t : Ticker) : Bool :=
  p.positions.any (fun pos => pos.ticker == t)

/-- `Portfolio.add_position`: raises if the ticker is already present,
otherwise stores the position (dict insertion appends to iteration order). -/
def Portfolio.add_position (p : Portfolio) (pos : Position) : Except String Portfolio :=
  if p.contains_ticker pos.ticker then
    Except.error ("Ticker '" ++ pos.ticker ++ "' was already added")
  else
    Except.ok ⟨p.positions ++ [pos]⟩

/-- `Portfolio.get_quantity`: the stored quantity, or `0` when absent. -/
def Portfolio.get_quantity (p : Portfolio) (t : Ticker) : ℚ :=
  match p.positions.find? (fun pos => pos.ticker == t) with
  | some pos => pos.quantity
  | none => 0

/-- `Portfolio.all_tickers`: the dict keys, in insertion order. -/
def Portfolio.all_tickers (p : Portfolio) : List Ticker :=
  p.positions.map Position.ticker

/-- `Portfolio.calc_total_value`. -/
def Portfolio.calc_total_value (p : Portfolio) (price : Ticker → ℚ) : ℚ :=
  (p.positions.map (fun pos => price pos.ticker * pos.quantity)).sum

/-- The `PriceLookup` class of `PriceLookup.py`: a dict ticker → price.
The Python `get_price` raises on a missing ticker; the embedding returns `0`
there, and every theorem touching prices assumes the relevant tickers are
priced (positively), so the defaulted branch is never exercised. -/
structure PriceLookup where
  prices : List (Ticker × ℚ)
  deriving DecidableEq

/-- `PriceLookup.add_price`: raises on a duplicate ticker, else stores it. -/
def PriceLookup.add_price (pl : PriceLookup) (t : Ticker) (price : ℚ) :
    Except String PriceLookup :=
  if pl.prices.any (fun pr => pr.1 == t) then
    Except.error ("Ticker '" ++ t ++ "' was already added")
  else
    Except.ok ⟨pl.prices ++ [(t, price)]⟩

/-- `PriceLookup.get_price` (total version, `0` when unpriced — see
`PriceLookup`). -/
def PriceLookup.get_price (pl : PriceLookup) (t : Ticker) : ℚ :=
  match pl.prices.find? (fun pr => pr.1 == t) with
  | some pr => pr.2
  | none => 0

/-- The `TransactionType` enum. -/
inductive TransactionType where
  | BUY
  | SELL
  | EXCHANGE
  deriving DecidableEq

/-- The `RoundingBehavior` enum. -/
inductive RoundingBehavior where
  | UP
  | DOWN
  | NEAREST
  deriving DecidableEq

/-- The `RebalanceOptions` namedtuple.  `rounding_behavior` is `none` when the
Python field holds `None` (or anything that is not one of the three enum
members). -/
structure RebalanceOptions where
  target_total_value : ℚ
  allow_share_exchanges : Bool
  allow_fractional_shares : Bool
  rounding_behavior : Option RoundingBehavior
  deriving DecidableEq

/-- The `RebalanceInstruction` namedtuple.  For BUY/SELL the Python code sets
the counter fields to `None`, modelled as `none`. -/
structure RebalanceInstruction where
  transaction_type : TransactionType
  ticker : Ticker
  quantity : ℚ
  counter_ticker : Option Ticker
  counter_quantity : Option ℚ
  deriving DecidableEq

/-- `DEFAULT_TOLERANCE = .01` of `PortfolioRebalancer.py`. -/
def DEFAULT_TOLERANCE : ℚ := 1 / 100

/-- Python 3's builtin `round` on the exact value `q`: round to the nearest
integer, ties going to the even integer (banker's rounding; Python gives
`round(0.5) == 0`, `round(2.5) == 2`, `round(-2.5) == -2`, `round(3.5) == 4`). -/
def pyRound (q : ℚ) : ℤ :=
  if q - ⌊q⌋ < 1 / 2 then ⌊q⌋
  else if q - ⌊q⌋ > 1 / 2 then ⌊q⌋ + 1
  else if ⌊q⌋ % 2 = 0 then ⌊q⌋ else ⌊q⌋ + 1

/-- The `PortfolioRebalancer` object state: constructor fields plus the two
settable portfolios (`None` before `set_live_portfolio` /
`set_model_portfolio` are called; a `Portfolio` instance is always truthy in
Python, since the class defines neither `__bool__` nor `__len__`). -/
structure PortfolioRebalancer where
  prices : PriceLookup
  options : RebalanceOptions
  tolerance : ℚ
  live_portfolio : Option Portfolio
  model_portfolio : Option Portfolio
  deriving DecidableEq

/-- `PortfolioRebalancer(prices, options, tolerance=DEFAULT_TOLERANCE)`. -/
def PortfolioRebalancer.mk' (prices : PriceLookup) (options : RebalanceOptions)
    (tolerance : ℚ := DEFAULT_TOLERANCE) : PortfolioRebalancer :=
  ⟨prices, options, tolerance, none, none⟩

/-- `set_live_portfolio`. -/
def PortfolioRebalancer.set_live_portfolio (r : PortfolioRebalancer) (p : Portfolio) :
    PortfolioRebalancer :=
  { r with live_portfolio := some p }

/-- `set_model_portfolio`. -/
def PortfolioRebalancer.set_model_portfolio (r : PortfolioRebalancer) (p : Portfolio) :
    PortfolioRebalancer :=
  { r with model_portfolio := some p }

/-- The error message of the `build_rebalance_instructions` precondition. -/
def portfoliosNotSetMsg : String :=
  "live_portfolio and model_portfolio must both be set"

/-- The error message of the missing-rounding-behavior branch. -/
def roundingRequiredMsg : String :=
  "Rounding behavior required but not specified"

/-- The rounding step applied to one raw delta inside the model-ticker loop of
`build_rebalance_instructions` (lines 50-59): when fractional shares are
disallowed, dispatch on `rounding_behavior` (`round` / `math.ceil` /
`math.floor`), raising when none of the enum members matches. -/
def round_delta (options : RebalanceOptions) (delta : ℚ) : Except String ℚ :=
  if !options.allow_fractional_shares then
    match options.rounding_behavior with
    | some RoundingBehavior.NEAREST => Except.ok ((pyRound delta : ℤ) : ℚ)
    | some RoundingBehavior.UP => Except.ok ((⌈delta⌉ : ℤ) : ℚ)
    | some RoundingBehavior.DOWN => Except.ok ((⌊delta⌋ : ℤ) : ℚ)
    | none => Except.error roundingRequiredMsg
  else
    Except.ok delta

/-- The body of the first loop of `build_rebalance_instructions` (one model
ticker): compute the raw delta, round it when required, and then either skip
it (absolute value below tolerance) or append it to the delta map. -/
def model_delta_step (options : RebalanceOptions) (tolerance : ℚ)
    (live model : Portfolio) (acc : List (Ticker × ℚ)) (t : Ticker) :
    Except String (List (Ticker × ℚ)) := do
  let mp_quantity := model.get_quantity t
  let live_quantity := live.get_quantity t
  let delta ← round_delta options (mp_quantity - live_quantity)
  if |delta| < tolerance then
    pure acc
  else
    pure (acc ++ [(t, delta)])

/-- The second loop of `build_rebalance_instructions` (lines 64-68): every
live ticker absent from the model whose quantity exceeds the tolerance gets
the full-liquidation delta `-quantity` — with no rounding applied. -/
def liquidation_deltas (tolerance : ℚ) (live model : Portfolio) :
    List (Ticker × ℚ) :=
  live.all_tickers.filterMap (fun t =>
    if !model.contains_ticker t then
      let quantity := live.get_quantity t
      if quantity > tolerance then some (t, -quantity) else none
    else
      none)

/-- Strict lexicographic order on the stored heap entries `(-value, ticker)`,
exactly the tuple order Python's `heapq` compares with. -/
def tupLt (a b : ℚ × Ticker) : Bool :=
  a.1 < b.1 || (a.1 == b.1 && a.2 < b.2)

/-- `heapq.heappop`: extract the minimum entry (under `tupLt`) of the heap,
returning it together with the remaining entries.  The heap is modelled as a
bare multiset of entries, which `heapify`/`heappush`/`heappop` maintain; the
pop order (always the current minimum) is all the engine observes. -/
def heap_pop : List (ℚ × Ticker) → Option ((ℚ × Ticker) × List (ℚ × Ticker))
  | [] => none
  | x :: xs =>
    match heap_pop xs with
    | none => some (x, [])
    | some (m, rest) => if tupLt m x then some (m, x :: rest) else some (x, xs)

theorem heap_pop_eq_none {l : List (ℚ × Ticker)} (h : heap_pop l = none) :
    l = [] := by
  cases l with
  | nil => rfl
  | cons x xs =>
    cases hx : heap_pop xs with
    | none =>
      simp only [heap_pop, hx] at h
      exact Option.noConfusion h
    | some p =>
      obtain ⟨m, rest⟩ := p
      simp only [heap_pop, hx] at h
      split at h <;> simp at h

theorem heap_pop_length {l : List (ℚ × Ticker)} {m : ℚ × Ticker}
    {rest : List (ℚ × Ticker)} (h : heap_pop l = some (m, rest)) :
    rest.length + 1 = l.length := by
  induction l generalizing m rest with
  | nil => simp [heap_pop] at h
  | cons x xs ih =>
    cases hx : heap_pop xs with
    | none =>
      have hnil : xs = [] := heap_pop_eq_none hx
      subst hnil
      simp only [heap_pop, hx] at h
      injection h with h1
      injection h1 with h2 h3
      subst h3
      rfl
    | some p =>
      obtain ⟨m', rest'⟩ := p
      have hlen := ih hx
      simp only [heap_pop, hx] at h
      split at h <;>
        (injection h with h1; injection h1 with h2 h3; subst h3;
         simp only [List.length_cons] <;> omega)

/-- One round of the `while` loop of `__populate_exchange_trades`
(lines 121-138), iterated to completion.  Each iteration pops the current
maximum-value buy and sell (the stored first components are negated values),
emits one EXCHANGE instruction for the smaller of the two values, and pushes
the larger side back with its residual value when that residual is more than
`tolerance` of the popped value.  Returns the accumulated instruction list and
the final contents of both heaps. -/
def exchange_loop (prices : PriceLookup) (tolerance : ℚ) :
    List (ℚ × Ticker) → List (ℚ × Ticker) → List RebalanceInstruction →
    List RebalanceInstruction × List (ℚ × Ticker) × List (ℚ × Ticker)
  | buys, sells, instructions =>
    match hb : heap_pop buys, hs : heap_pop sells with
    | some (buy, buys'), some (sell, sells') =>
      let buy_value := |buy.1|
      let buy_ticker := buy.2
      let buy_price := prices.get_price buy_ticker
      let sell_value := |sell.1|
      let sell_ticker := sell.2
      let sell_price := prices.get_price sell_ticker
      if sell_value > buy_value then
        let instructions := instructions ++
          [⟨TransactionType.EXCHANGE, sell_ticker, buy_value / sell_price,
            some buy_ticker, some (buy_value / buy_price)⟩]
        let residual_sell_value := sell_value - buy_value
        let sells'' :=
          if residual_sell_value / sell_value > tolerance then
            (-residual_sell_value, sell_ticker) :: sells'
          else sells'
        exchange_loop prices tolerance buys' sells'' instructions
      else
        let instructions := instructions ++
          [⟨TransactionType.EXCHANGE, sell_ticker, sell_value / sell_price,
            some buy_ticker, some (sell_value / buy_price)⟩]
        let residual_buy_value := buy_value - sell_value
        let buys'' :=
          if residual_buy_value / buy_value > tolerance then
            (-residual_buy_value, buy_ticker) :: buys'
          else buys'
        exchange_loop prices tolerance buys'' sells' instructions
    | _, _ => (instructions, buys, sells)
  termination_by buys sells _ => buys.length + sells.length
  decreasing_by
    · have h1 := heap_pop_length hb
      have h2 := heap_pop_length hs
      split <;> (try simp only [List.length_cons]) <;> omega
    · have h1 := heap_pop_length hb
      have h2 := heap_pop_length hs
      split <;> (try simp only [List.length_cons]) <;> omega

/-- `__populate_exchange_trades` (lines 110-147): split the delta map into
negated-value heaps of buys and sells, run the matching loop, and rebuild the
delta map from whatever one side has left (values converted back to signed
quantities through each ticker's price). -/
def populate_exchange_trades (prices : PriceLookup) (tolerance : ℚ)
    (deltas : List (Ticker × ℚ)) :
    List RebalanceInstruction × List (Ticker × ℚ) :=
  let buys := deltas.filterMap (fun d =>
    if d.2 < 0 then none else some (-|d.2 * prices.get_price d.1|, d.1))
  let sells := deltas.filterMap (fun d =>
    if d.2 < 0 then some (-|d.2 * prices.get_price d.1|, d.1) else none)
  let result := exchange_loop prices tolerance buys sells []
  let new_deltas :=
    result.2.1.map (fun buy => (buy.2, |buy.1| / prices.get_price buy.2)) ++
    result.2.2.map (fun sell => (sell.2, -(|sell.1| / prices.get_price sell.2)))
  (result.1, new_deltas)

/-- The final loop of `build_rebalance_instructions` (lines 74-76): each
remaining delta becomes a BUY (positive) or SELL (otherwise) of magnitude
`|delta|`. -/
def instructions_from_deltas (deltas : List (Ticker × ℚ)) :
    List RebalanceInstruction :=
  deltas.map (fun d =>
    ⟨if d.2 > 0 then TransactionType.BUY else TransactionType.SELL,
     d.1, |d.2|, none, none⟩)

/-- `build_rebalance_instructions` (lines 42-77). -/
def build_rebalance_instructions (r : PortfolioRebalancer) :
    Except String (List RebalanceInstruction) :=
  match r.live_portfolio, r.model_portfolio with
  | some live, some model => do
    let deltas ← model.all_tickers.foldlM
      (model_delta_step r.options r.tolerance live model) []
    let deltas := deltas ++ liquidation_deltas r.tolerance live model
    let ex :=
      if r.options.allow_share_exchanges then
        populate_exchange_trades r.prices r.tolerance deltas
      else
        ([], deltas)
    pure (ex.1 ++ instructions_from_deltas ex.2)
  | _, _ => Except.error portfoliosNotSetMsg

/-- One `defaultdict(float)` mutation `m[t] = f m[t]` of the rebalanced map:
update the (first, and under the dict invariant only) entry holding the key in
place — dict iteration order is preserved — otherwise append the key with
`f 0` (the `float()` default). -/
def dd_update : List (Ticker × ℚ) → Ticker → (ℚ → ℚ) → List (Ticker × ℚ)
  | [], t, f => [(t, f 0)]
  | e :: m, t, f => if e.1 = t then (t, f e.2) :: m else e :: dd_update m t f

/-- The effect of one instruction on the rebalanced map
(`build_rebalanced_portfolio`, lines 85-95): BUY adds, SELL subtracts,
EXCHANGE subtracts `quantity` from `ticker` and adds `counter_quantity` to
`counter_ticker`.  The engine sets both counter fields of every EXCHANGE; on
the unreachable `none` case the counter update is skipped. -/
def apply_instruction (m : List (Ticker × ℚ)) (i : RebalanceInstruction) :
    List (Ticker × ℚ) :=
  match i.transaction_type with
  | TransactionType.BUY => dd_update m i.ticker (fun q => q + i.quantity)
  | TransactionType.SELL => dd_update m i.ticker (fun q => q - i.quantity)
  | TransactionType.EXCHANGE =>
    let m := dd_update m i.ticker (fun q => q - i.quantity)
    match i.counter_ticker, i.counter_quantity with
    | some ct, some cq => dd_update m ct (fun q => q + cq)
    | _, _ => m

/-- The final loop of `build_rebalanced_portfolio` (lines 96-99): add every
nonzero entry of the rebalanced map as a position of a fresh portfolio. -/
def portfolio_of_rebalanced (m : List (Ticker × ℚ)) : Except String Portfolio :=
  m.foldlM (fun pf e =>
    if e.2 ≠ 0 then pf.add_position ⟨e.1, e.2⟩ else pure pf) Portfolio.empty

/-- `build_rebalanced_portfolio` (lines 79-100). -/
def build_rebalanced_portfolio (r : PortfolioRebalancer) :
    Except String Portfolio := do
  let instructions ← build_rebalance_instructions r
  match r.live_portfolio with
  | some live =>
    let rebalanced := live.all_tickers.map (fun t => (t, live.get_quantity t))
    let rebalanced := instructions.foldl apply_instruction rebalanced
    portfolio_of_rebalanced rebalanced
  | none => Except.error portfoliosNotSetMsg

/-- The prefix of the convergence-failure message raised by `validate`. -/
def didNotConvergeMsg (n : Nat) : String :=
  "Live portfolio did not rebalance cleanly (re-running the rebalance still generated "
    ++ toString n ++ " rebalance instructions)"

/-- The second `PortfolioRebalancer` that `validate` (lines 102-105) builds:
`PortfolioRebalancer(self.prices, self.options)` — the tolerance argument is
omitted, so the validator gets `DEFAULT_TOLERANCE`, not `self.tolerance` —
with the same model portfolio and the just-rebalanced portfolio as live. -/
def validate_validator (r : PortfolioRebalancer) :
    Except String PortfolioRebalancer := do
  let rebalanced ← build_rebalanced_portfolio r
  pure (((PortfolioRebalancer.mk' r.prices r.options).set_model_portfolio
    (match r.model_portfolio with | some m => m | none => Portfolio.empty)).set_live_portfolio
    rebalanced)

/-- `validate` (lines 102-108).  (When `model_portfolio` is `None` the Python
code would pass `None` through `set_model_portfolio`; the embedding's
`validate_validator` substitutes an empty portfolio there, but that branch is
unreachable: `build_rebalanced_portfolio` has already raised.) -/
def validate (r : PortfolioRebalancer) : Except String Unit := do
  let validator ← validate_validator r
  let instructions ← build_rebalance_instructions validator
  if instructions.length > 0 then
    Except.error (didNotConvergeMsg instructions.length)
  else
    pure ()

/-- The `ModelPosition` namedtuple of `ModelPortfolioBuilder.py`. -/
structure ModelPosition where
  ticker : Ticker
  target_percentage : ℚ
  deriving DecidableEq

/-- The `ModelPortfolioBuilder` object state: the dict of model positions is
an insertion-ordered list with unique tickers. -/
structure ModelPortfolioBuilder where
  prices : PriceLookup
  target_value : ℚ
  tolerance : ℚ
  model_positions : List ModelPosition
  deriving DecidableEq

/-- `ModelPortfolioBuilder(target_value, prices, tolerance=DEFAULT_TOLERANCE)`. -/
def ModelPortfolioBuilder.mk' (target_value : ℚ) (prices : PriceLookup)
    (tolerance : ℚ := DEFAULT_TOLERANCE) : ModelPortfolioBuilder :=
  ⟨prices, target_value, tolerance, []⟩

/-- `add_model_position`: raises on a duplicate ticker, else appends. -/
def ModelPortfolioBuilder.add_model_position (b : ModelPortfolioBuilder)
    (mp : ModelPosition) : Except String ModelPortfolioBuilder :=
  if b.model_positions.any (fun q => q.ticker == mp.ticker) then
    Except.error ("Ticker '" ++ mp.ticker ++ "' was already added in model positions")
  else
    Except.ok { b with model_positions := b.model_positions ++ [mp] }

/-- The error message of the percentage-sum check. -/
def percentagesMsg : String :=
  "Sum of model portfolio target_percentages does not sum to 100%"

/-- `generate_model_portfolio` (lines 22-32): check the percentage sum
against the tolerance, then add a position for every model position whose
computed quantity `(target_value * pct / 100) / price` is strictly positive. -/
def ModelPortfolioBuilder.generate_model_portfolio (b : ModelPortfolioBuilder) :
    Except String Portfolio := do
  if |(b.model_positions.map ModelPosition.target_percentage).sum - 100| > b.tolerance then
    Except.error percentagesMsg
  else
    b.model_positions.foldlM (fun pf mp =>
      let price := b.prices.get_price mp.ticker
      let quantity := b.target_value * mp.target_percentage / 100 / price
      if quantity > 0 then pf.add_position ⟨mp.ticker, quantity⟩ else pure pf)
      Portfolio.empty

/-!
## Helper notions for the proofs

`ddGet`/`hasKey` read an association list the way the Python dict is read:
first (and, under the no-duplicate-keys invariant, only) entry wins.
-/

/-- Dict lookup with default `0` (the value `defaultdict(float)` reads):
the first entry with the key wins, as for `List.find?`. -/
def ddGet : List (Ticker × ℚ) → Ticker → ℚ
  | [], _ => 0
  | e :: m, t => if e.1 = t then e.2 else ddGet m t

/-- Dict membership. -/
def hasKey (m : List (Ticker × ℚ)) (t : Ticker) : Bool :=
  m.any (fun e => e.1 == t)

/-- The no-duplicate-keys invariant of a dict modelled as a list. -/
def keysNodup (m : List (Ticker × ℚ)) : Prop :=
  (m.map Prod.fst).Nodup

@[simp] theorem ddGet_nil (t : Ticker) : ddGet [] t = 0 := rfl

theorem ddGet_cons (e : Ticker × ℚ) (m : List (Ticker × ℚ)) (t : Ticker) :
    ddGet (e :: m) t = if e.1 = t then e.2 else ddGet m t := rfl

theorem ddGet_append_left {m₁ : List (Ticker × ℚ)} (m₂ : List (Ticker × ℚ))
    {t : Ticker} (h : hasKey m₁ t = false) : ddGet (m₁ ++ m₂) t = ddGet m₂ t := by
  induction m₁ with
  | nil => rfl
  | cons e m₁ ih =>
    simp only [hasKey, List.any_cons, Bool.or_eq_false_iff, beq_eq_false_iff_ne] at h
    simp only [List.cons_append, ddGet_cons, h.1, if_false]
    exact ih (by simp [hasKey, h.2])

@[simp] theorem hasKey_nil (t : Ticker) : hasKey [] t = false := rfl

theorem hasKey_cons (e : Ticker × ℚ) (m : List (Ticker × ℚ)) (t : Ticker) :
    hasKey (e :: m) t = ((e.1 == t) || hasKey m t) := by
  simp [hasKey]

theorem hasKey_iff {m : List (Ticker × ℚ)} {t : Ticker} :
    hasKey m t = true ↔ t ∈ m.map Prod.fst := by
  simp [hasKey, List.any_eq_true, List.mem_map]

theorem hasKey_append (m₁ m₂ : List (Ticker × ℚ)) (t : Ticker) :
    hasKey (m₁ ++ m₂) t = (hasKey m₁ t || hasKey m₂ t) := by
  simp [hasKey]

theorem contains_ticker_iff {p : Portfolio} {t : Ticker} :
    p.contains_ticker t = true ↔ t ∈ p.all_tickers := by
  simp [Portfolio.contains_ticker, Portfolio.all_tickers, List.any_eq_true]

theorem get_quantity_cons (pos : Position) (ps : List Position) (t : Ticker) :
    Portfolio.get_quantity ⟨pos :: ps⟩ t =
      if pos.ticker = t then pos.quantity else Portfolio.get_quantity ⟨ps⟩ t := by
  unfold Portfolio.get_quantity
  by_cases h : pos.ticker = t
  · simp [List.find?, h]
  · simp only [List.find?]
    rw [show (pos.ticker == t) = false by simp [h], if_neg h]

theorem ddGet_dd_update_self (m : List (Ticker × ℚ)) (t : Ticker) (f : ℚ → ℚ) :
    ddGet (dd_update m t f) t = f (ddGet m t) := by
  induction m with
  | nil => simp [dd_update, ddGet_cons]
  | cons e m ih =>
    by_cases he : e.1 = t
    · simp [dd_update, he, ddGet_cons]
    · simp [dd_update, he, ddGet_cons, ih]

theorem ddGet_dd_update_ne (m : List (Ticker × ℚ)) (t u : Ticker) (f : ℚ → ℚ)
    (h : u ≠ t) : ddGet (dd_update m t f) u = ddGet m u := by
  induction m with
  | nil => simp [dd_update, ddGet_cons, h.symm]
  | cons e m ih =>
    by_cases he : e.1 = t
    · subst he
      simp [dd_update, ddGet_cons, h.symm]
    · rw [show dd_update (e :: m) t f = e :: dd_update m t f by simp [dd_update, he]]
      rw [ddGet_cons, ddGet_cons]
      by_cases heu : e.1 = u
      · rw [if_pos heu, if_pos heu]
      · rw [if_neg heu, if_neg heu]
        exact ih

theorem keys_dd_update_of_hasKey (m : List (Ticker × ℚ)) (t : Ticker) (f : ℚ → ℚ)
    (h : hasKey m t = true) :
    (dd_update m t f).map Prod.fst = m.map Prod.fst := by
  induction m with
  | nil => simp at h
  | cons e m ih =>
    by_cases he : e.1 = t
    · simp [dd_update, he]
    · rw [hasKey_cons] at h
      simp only [show (e.1 == t) = false by simp [he], Bool.false_or] at h
      simp [dd_update, he, ih h]

theorem keys_dd_update_of_not_hasKey (m : List (Ticker × ℚ)) (t : Ticker) (f : ℚ → ℚ)
    (h : hasKey m t = false) :
    (dd_update m t f).map Prod.fst = m.map Prod.fst ++ [t] := by
  induction m with
  | nil => simp [dd_update]
  | cons e m ih =>
    rw [hasKey_cons] at h
    simp only [Bool.or_eq_false_iff, beq_eq_false_iff_ne] at h
    simp [dd_update, h.1, ih (by simp [hasKey] at h ⊢; exact fun x hx => h.2 x hx)]

theorem hasKey_dd_update (m : List (Ticker × ℚ)) (t u : Ticker) (f : ℚ → ℚ) :
    hasKey (dd_update m t f) u = (hasKey m u || u == t) := by
  induction m with
  | nil => simp [dd_update, hasKey_cons, eq_comm]
  | cons e m ih =>
    by_cases he : e.1 = t
    · rw [show dd_update (e :: m) t f = (t, f e.2) :: m by simp [dd_update, he]]
      rw [hasKey_cons, hasKey_cons]
      subst he
      by_cases hue : u = e.1
      · simp [hue]
      · simp [hue, show ¬(e.1 = u) from fun hh => hue hh.symm]
    · rw [show dd_update (e :: m) t f = e :: dd_update m t f by simp [dd_update, he]]
      rw [hasKey_cons, hasKey_cons, ih, Bool.or_assoc]

theorem keysNodup_dd_update (m : List (Ticker × ℚ)) (t : Ticker) (f : ℚ → ℚ)
    (h : keysNodup m) : keysNodup (dd_update m t f) := by
  unfold keysNodup at h ⊢
  by_cases hk : hasKey m t
  · rw [keys_dd_update_of_hasKey m t f hk]; exact h
  · rw [keys_dd_update_of_not_hasKey m t f (by simpa using hk)]
    rw [List.nodup_append]
    refine ⟨h, List.nodup_singleton t, ?_⟩
    intro u hu hmem
    simp only [List.mem_singleton] at hmem
    subst hmem
    exact absurd (hasKey_iff.mpr hu) (by simpa using hk)

/-- The signed net effect of a delta list on one ticker. -/
def deltaSum (ds : List (Ticker × ℚ)) (u : Ticker) : ℚ :=
  (ds.map (fun d => if d.1 = u then d.2 else 0)).sum

@[simp] theorem deltaSum_nil (u : Ticker) : deltaSum [] u = 0 := rfl

theorem deltaSum_cons (d : Ticker × ℚ) (ds : List (Ticker × ℚ)) (u : Ticker) :
    deltaSum (d :: ds) u = (if d.1 = u then d.2 else 0) + deltaSum ds u := by
  simp [deltaSum]

theorem instructions_from_deltas_cons (d : Ticker × ℚ) (ds : List (Ticker × ℚ)) :
    instructions_from_deltas (d :: ds) =
      ⟨if d.2 > 0 then TransactionType.BUY else TransactionType.SELL,
       d.1, |d.2|, none, none⟩ :: instructions_from_deltas ds := rfl

theorem ddGet_apply_delta (m : List (Ticker × ℚ)) (d : Ticker × ℚ) (u : Ticker) :
    ddGet (apply_instruction m
      ⟨if d.2 > 0 then TransactionType.BUY else TransactionType.SELL,
       d.1, |d.2|, none, none⟩) u
      = ddGet m u + (if d.1 = u then d.2 else 0) := by
  by_cases hd : d.2 > 0
  · rw [if_pos hd]
    show ddGet (dd_update m d.1 (fun q => q + |d.2|)) u = _
    by_cases hu : d.1 = u
    · subst hu
      rw [ddGet_dd_update_self, if_pos rfl, abs_of_pos hd]
    · rw [ddGet_dd_update_ne m d.1 u _ (fun hh => hu hh.symm), if_neg hu, add_zero]
  · rw [if_neg hd]
    show ddGet (dd_update m d.1 (fun q => q - |d.2|)) u = _
    by_cases hu : d.1 = u
    · subst hu
      rw [ddGet_dd_update_self, if_pos rfl, abs_of_nonpos (le_of_not_lt hd)]
      ring
    · rw [ddGet_dd_update_ne m d.1 u _ (fun hh => hu hh.symm), if_neg hu, add_zero]

theorem hasKey_apply_delta (m : List (Ticker × ℚ)) (d : Ticker × ℚ) (u : Ticker) :
    hasKey (apply_instruction m
      ⟨if d.2 > 0 then TransactionType.BUY else TransactionType.SELL,
       d.1, |d.2|, none, none⟩) u
      = (hasKey m u || u == d.1) := by
  by_cases hd : d.2 > 0
  · rw [if_pos hd]
    exact hasKey_dd_update m d.1 u _
  · rw [if_neg hd]
    exact hasKey_dd_update m d.1 u _

theorem keysNodup_apply_delta (m : List (Ticker × ℚ)) (d : Ticker × ℚ)
    (h : keysNodup m) :
    keysNodup (apply_instruction m
      ⟨if d.2 > 0 then TransactionType.BUY else TransactionType.SELL,
       d.1, |d.2|, none, none⟩) := by
  by_cases hd : d.2 > 0
  · rw [if_pos hd]; exact keysNodup_dd_update m d.1 _ h
  · rw [if_neg hd]; exact keysNodup_dd_update m d.1 _ h

theorem ddGet_applyAll (ds : List (Ticker × ℚ)) :
    ∀ (m : List (Ticker × ℚ)) (u : Ticker),
    ddGet ((instructions_from_deltas ds).foldl apply_instruction m) u
      = ddGet m u + deltaSum ds u := by
  induction ds with
  | nil => intro m u; simp [instructions_from_deltas]
  | cons d ds ih =>
    intro m u
    rw [instructions_from_deltas_cons, List.foldl_cons, ih, ddGet_apply_delta,
      deltaSum_cons]
    ring

theorem hasKey_applyAll (ds : List (Ticker × ℚ)) :
    ∀ (m : List (Ticker × ℚ)) (u : Ticker),
    hasKey ((instructions_from_deltas ds).foldl apply_instruction m) u
      = (hasKey m u || ds.any (fun d => d.1 == u)) := by
  induction ds with
  | nil => intro m u; simp [instructions_from_deltas]
  | cons d ds ih =>
    intro m u
    rw [instructions_from_deltas_cons, List.foldl_cons, ih, hasKey_apply_delta,
      List.any_cons]
    by_cases hu : d.1 = u
    · have h1 : (u == d.1) = true := by simp [hu]
      have h2 : (d.1 == u) = true := by simp [hu]
      rw [h1, h2]
      simp
    · have h1 : (u == d.1) = false := by
        simp [show ¬(u = d.1) from fun hh => hu hh.symm]
      have h2 : (d.1 == u) = false := by simp [hu]
      rw [h1, h2]
      simp

theorem keysNodup_applyAll (ds : List (Ticker × ℚ)) :
    ∀ (m : List (Ticker × ℚ)), keysNodup m →
    keysNodup ((instructions_from_deltas ds).foldl apply_instruction m) := by
  induction ds with
  | nil => intro m h; simpa [instructions_from_deltas] using h
  | cons d ds ih =>
    intro m h
    rw [instructions_from_deltas_cons, List.foldl_cons]
    exact ih _ (keysNodup_apply_delta m d h)

theorem add_position_of_not_contains {p : Portfolio} {pos : Position}
    (h : p.contains_ticker pos.ticker = false) :
    p.add_position pos = Except.ok ⟨p.positions ++ [pos]⟩ := by
  rw [Portfolio.add_position, if_neg (by simp [h])]

theorem add_position_of_contains {p : Portfolio} {pos : Position}
    (h : p.contains_ticker pos.ticker = true) :
    p.add_position pos = Except.error ("Ticker '" ++ pos.ticker ++ "' was already added") := by
  rw [Portfolio.add_position, if_pos h]

theorem contains_ticker_eq_false_iff {p : Portfolio} {t : Ticker} :
    p.contains_ticker t = false ↔ t ∉ p.positions.map Position.ticker := by
  rw [← Bool.not_eq_true, not_iff_not, contains_ticker_iff]
  rfl

theorem portfolio_of_rebalanced_go (m : List (Ticker × ℚ)) :
    ∀ pf : Portfolio,
    (pf.positions.map Position.ticker ++ m.map Prod.fst).Nodup →
    (m.foldlM (fun pf e =>
        if e.2 ≠ 0 then pf.add_position ⟨e.1, e.2⟩ else pure pf) pf)
      = Except.ok ⟨pf.positions ++
          (m.filter (fun e => e.2 ≠ 0)).map (fun e => ⟨e.1, e.2⟩)⟩ := by
  induction m with
  | nil =>
    intro pf _
    obtain ⟨ps⟩ := pf
    show Except.ok (Portfolio.mk ps) = _
    simp
  | cons e m ih =>
    intro pf hnodup
    rw [List.foldlM_cons]
    by_cases he : e.2 ≠ 0
    · rw [if_pos he]
      have hnotin : e.1 ∉ pf.positions.map Position.ticker := by
        intro hmem
        rw [List.nodup_append] at hnodup
        exact hnodup.2.2 hmem (by simp)
      rw [add_position_of_not_contains
        (contains_ticker_eq_false_iff.mpr hnotin)]
      have hn2 : ((pf.positions ++ [(⟨e.1, e.2⟩ : Position)]).map Position.ticker
          ++ m.map Prod.fst).Nodup := by
        rw [List.map_append, List.append_assoc]
        simpa using hnodup
      have hih := ih ⟨pf.positions ++ [⟨e.1, e.2⟩]⟩ hn2
      change List.foldlM _ (⟨pf.positions ++ [⟨e.1, e.2⟩]⟩ : Portfolio) m = _
      rw [hih, List.filter_cons_of_pos (by simpa using he)]
      simp
    · rw [if_neg he]
      have hsub : (pf.positions.map Position.ticker ++ m.map Prod.fst).Sublist
          (pf.positions.map Position.ticker ++ (e :: m).map Prod.fst) := by
        apply List.Sublist.append_left
        simp
      have hih := ih pf (hsub.nodup hnodup)
      change List.foldlM _ pf m = _
      rw [hih, List.filter_cons_of_neg (by simpa using he)]

theorem fold_add_nonzero_go (m : List (Ticker × ℚ)) :
    ∀ pf₀ pf : Portfolio,
    (m.foldlM (fun pf e =>
        if e.2 ≠ 0 then pf.add_position ⟨e.1, e.2⟩ else pure pf) pf₀
      = Except.ok pf) →
    ∀ pos ∈ pf.positions, pos ∈ pf₀.positions ∨ pos.quantity ≠ 0 := by
  induction m with
  | nil =>
    intro pf₀ pf h pos hmem
    simp only [List.foldlM_nil] at h
    cases h
    exact Or.inl hmem
  | cons e m ih =>
    intro pf₀ pf h pos hmem
    rw [List.foldlM_cons] at h
    by_cases he : e.2 ≠ 0
    · rw [if_pos he] at h
      cases hadd : pf₀.add_position ⟨e.1, e.2⟩ with
      | error msg =>
        rw [hadd] at h
        exact Except.noConfusion h
      | ok pf₁ =>
        rw [hadd] at h
        replace h : m.foldlM (fun pf e =>
            if e.2 ≠ 0 then pf.add_position ⟨e.1, e.2⟩ else pure pf) pf₁
          = Except.ok pf := h
        rcases ih pf₁ pf h pos hmem with h1 | h1
        · rw [Portfolio.add_position] at hadd
          split at hadd
          · exact absurd hadd (by simp)
          · cases hadd
            simp at h1
            rcases h1 with h1 | h1
            · exact Or.inl h1
            · subst h1
              exact Or.inr he
        · exact Or.inr h1
    · rw [if_neg he] at h
      exact ih pf₀ pf h pos hmem

theorem fold_add_nodup_go (m : List (Ticker × ℚ)) :
    ∀ pf₀ pf : Portfolio,
    (m.foldlM (fun pf e =>
        if e.2 ≠ 0 then pf.add_position ⟨e.1, e.2⟩ else pure pf) pf₀
      = Except.ok pf) →
    (pf₀.positions.map Position.ticker).Nodup →
    (pf.positions.map Position.ticker).Nodup := by
  induction m with
  | nil =>
    intro pf₀ pf h h0
    simp only [List.foldlM_nil] at h
    cases h
    exact h0
  | cons e m ih =>
    intro pf₀ pf h h0
    rw [List.foldlM_cons] at h
    by_cases he : e.2 ≠ 0
    · rw [if_pos he] at h
      cases hadd : pf₀.add_position ⟨e.1, e.2⟩ with
      | error msg =>
        rw [hadd] at h
        exact Except.noConfusion h
      | ok pf₁ =>
        rw [hadd] at h
        replace h : m.foldlM (fun pf e =>
            if e.2 ≠ 0 then pf.add_position ⟨e.1, e.2⟩ else pure pf) pf₁
          = Except.ok pf := h
        refine ih pf₁ pf h ?_
        rw [Portfolio.add_position] at hadd
        split at hadd
        · exact absurd hadd (by simp)
        · next hcont =>
          cases hadd
          rw [Bool.not_eq_true] at hcont
          have hnot : (e.1 : Ticker) ∉ pf₀.positions.map Position.ticker :=
            contains_ticker_eq_false_iff.mp hcont
          simp [List.nodup_append, h0, hnot]
    · rw [if_neg he] at h
      exact ih pf₀ pf h h0

/-- Evaluation of `model_delta_step` when the rounding succeeds. -/
theorem model_delta_step_ok (o : RebalanceOptions) (tol : ℚ)
    (live model : Portfolio) (acc : List (Ticker × ℚ)) (t : Ticker) (δ : ℚ)
    (hr : round_delta o (model.get_quantity t - live.get_quantity t) = Except.ok δ) :
    model_delta_step o tol live model acc t
      = if |δ| < tol then Except.ok acc else Except.ok (acc ++ [(t, δ)]) := by
  rw [model_delta_step, hr]
  show (if |δ| < tol then pure acc else pure (acc ++ [(t, δ)]) : Except String _) = _
  by_cases hlt : |δ| < tol
  · rw [if_pos hlt, if_pos hlt]; rfl
  · rw [if_neg hlt, if_neg hlt]; rfl

/-- Evaluation of `model_delta_step` when the rounding raises. -/
theorem model_delta_step_error (o : RebalanceOptions) (tol : ℚ)
    (live model : Portfolio) (acc : List (Ticker × ℚ)) (t : Ticker) (msg : String)
    (hr : round_delta o (model.get_quantity t - live.get_quantity t)
      = Except.error msg) :
    model_delta_step o tol live model acc t = Except.error msg := by
  rw [model_delta_step, hr]
  rfl

/-- The model-ticker loop never errors once `round_delta` is total on the
given options; its result is the accumulated list of the deltas that survive
the tolerance filter. -/
theorem model_loop_ok (o : RebalanceOptions) (tol : ℚ) (live model : Portfolio)
    (ρ : ℚ → ℚ) (hρ : ∀ δ, round_delta o δ = Except.ok (ρ δ)) :
    ∀ (ts : List Ticker) (acc : List (Ticker × ℚ)),
    ts.foldlM (model_delta_step o tol live model) acc
      = Except.ok (acc ++ ts.filterMap (fun t =>
          let δ := ρ (model.get_quantity t - live.get_quantity t)
          if |δ| < tol then none else some (t, δ))) := by
  intro ts
  induction ts with
  | nil =>
    intro acc
    simp only [List.foldlM_nil, List.filterMap_nil, List.append_nil]
    rfl
  | cons t ts ih =>
    intro acc
    rw [List.foldlM_cons]
    rw [model_delta_step_ok o tol live model acc t _ (hρ _)]
    by_cases hlt : |ρ (model.get_quantity t - live.get_quantity t)| < tol
    · rw [if_pos hlt]
      change ts.foldlM (model_delta_step o tol live model) acc = _
      rw [ih acc]
      rw [List.filterMap_cons]
      simp only [hlt, if_pos]
    · rw [if_neg hlt]
      change ts.foldlM (model_delta_step o tol live model)
        (acc ++ [(t, ρ (model.get_quantity t - live.get_quantity t))]) = _
      rw [ih]
      rw [List.filterMap_cons]
      simp only [hlt, if_neg, List.append_assoc, List.singleton_append]
      simp

/-- `round_delta` fails only with the missing-rounding-behavior message. -/
theorem round_delta_error {o : RebalanceOptions} {δ : ℚ} {e : String}
    (h : round_delta o δ = Except.error e) : e = roundingRequiredMsg := by
  rw [round_delta] at h
  split at h
  · split at h <;> simp_all
  · exact Except.noConfusion h

/-- The model-ticker loop fails only with the missing-rounding-behavior
message. -/
theorem model_loop_error (o : RebalanceOptions) (tol : ℚ) (live model : Portfolio) :
    ∀ (ts : List Ticker) (acc : List (Ticker × ℚ)) (e : String),
    ts.foldlM (model_delta_step o tol live model) acc = Except.error e →
    e = roundingRequiredMsg := by
  intro ts
  induction ts with
  | nil =>
    intro acc e h
    simp only [List.foldlM_nil] at h
    exact Except.noConfusion h
  | cons t ts ih =>
    intro acc e h
    rw [List.foldlM_cons] at h
    cases hr : round_delta o (model.get_quantity t - live.get_quantity t) with
    | error msg =>
      rw [model_delta_step_error o tol live model acc t msg hr] at h
      replace h : (Except.error msg : Except String (List (Ticker × ℚ)))
        = Except.error e := h
      cases h
      exact round_delta_error hr
    | ok δ =>
      rw [model_delta_step_ok o tol live model acc t δ hr] at h
      by_cases hlt : |δ| < tol
      · rw [if_pos hlt] at h
        replace h : ts.foldlM (model_delta_step o tol live model) acc
          = Except.error e := h
        exact ih _ e h
      · rw [if_neg hlt] at h
        replace h : ts.foldlM (model_delta_step o tol live model) (acc ++ [(t, δ)])
          = Except.error e := h
        exact ih _ e h

theorem round_delta_fractional {o : RebalanceOptions}
    (h : o.allow_fractional_shares = true) (δ : ℚ) :
    round_delta o δ = Except.ok δ := by
  rw [round_delta, h]
  rfl

theorem round_delta_nearest {o : RebalanceOptions}
    (h1 : o.allow_fractional_shares = false)
    (h2 : o.rounding_behavior = some RoundingBehavior.NEAREST) (δ : ℚ) :
    round_delta o δ = Except.ok ((pyRound δ : ℤ) : ℚ) := by
  rw [round_delta, h1, h2]
  rfl

theorem round_delta_up {o : RebalanceOptions}
    (h1 : o.allow_fractional_shares = false)
    (h2 : o.rounding_behavior = some RoundingBehavior.UP) (δ : ℚ) :
    round_delta o δ = Except.ok ((⌈δ⌉ : ℤ) : ℚ) := by
  rw [round_delta, h1, h2]
  rfl

theorem round_delta_down {o : RebalanceOptions}
    (h1 : o.allow_fractional_shares = false)
    (h2 : o.rounding_behavior = some RoundingBehavior.DOWN) (δ : ℚ) :
    round_delta o δ = Except.ok ((⌊δ⌋ : ℤ) : ℚ) := by
  rw [round_delta, h1, h2]
  rfl

theorem round_delta_none {o : RebalanceOptions}
    (h1 : o.allow_fractional_shares = false)
    (h2 : o.rounding_behavior = none) (δ : ℚ) :
    round_delta o δ = Except.error roundingRequiredMsg := by
  rw [round_delta, h1, h2]
  rfl

/-- The delta map a run computes before exchange matching: rounded-and-filtered
model deltas followed by the unrounded full-liquidation deltas. -/
def run_deltas (tol : ℚ) (live model : Portfolio) (ρ : ℚ → ℚ) :
    List (Ticker × ℚ) :=
  model.all_tickers.filterMap (fun t =>
    let δ := ρ (model.get_quantity t - live.get_quantity t)
    if |δ| < tol then none else some (t, δ))
  ++ liquidation_deltas tol live model

theorem build_eq (r : PortfolioRebalancer) (live model : Portfolio)
    (hl : r.live_portfolio = some live) (hm : r.model_portfolio = some model)
    (ρ : ℚ → ℚ) (hρ : ∀ δ, round_delta r.options δ = Except.ok (ρ δ)) :
    build_rebalance_instructions r
      = Except.ok (
          if r.options.allow_share_exchanges then
            (populate_exchange_trades r.prices r.tolerance
              (run_deltas r.tolerance live model ρ)).1
            ++ instructions_from_deltas (populate_exchange_trades r.prices
                r.tolerance (run_deltas r.tolerance live model ρ)).2
          else
            instructions_from_deltas (run_deltas r.tolerance live model ρ)) := by
  rw [build_rebalance_instructions]
  rw [hl, hm]
  show (do
    let deltas ← model.all_tickers.foldlM
      (model_delta_step r.options r.tolerance live model) []
    let deltas := deltas ++ liquidation_deltas r.tolerance live model
    let ex :=
      if r.options.allow_share_exchanges then
        populate_exchange_trades r.prices r.tolerance deltas
      else
        ([], deltas)
    pure (ex.1 ++ instructions_from_deltas ex.2)) = _
  rw [model_loop_ok r.options r.tolerance live model ρ hρ model.all_tickers []]
  show Except.ok _ = _
  rw [run_deltas]
  by_cases hex : r.options.allow_share_exchanges = true
  · rw [if_pos hex, if_pos hex]
    simp
  · rw [if_neg hex, if_neg hex]
    simp [instructions_from_deltas]

theorem build_error_msg (r : PortfolioRebalancer) (live model : Portfolio)
    (hl : r.live_portfolio = some live) (hm : r.model_portfolio = some model)
    (e : String) (h : build_rebalance_instructions r = Except.error e) :
    e = roundingRequiredMsg := by
  rw [build_rebalance_instructions, hl, hm] at h
  replace h : (do
    let deltas ← model.all_tickers.foldlM
      (model_delta_step r.options r.tolerance live model) []
    let deltas := deltas ++ liquidation_deltas r.tolerance live model
    let ex :=
      if r.options.allow_share_exchanges then
        populate_exchange_trades r.prices r.tolerance deltas
      else
        ([], deltas)
    pure (ex.1 ++ instructions_from_deltas ex.2)) = Except.error e := h
  cases hfold : model.all_tickers.foldlM
      (model_delta_step r.options r.tolerance live model) [] with
  | error msg =>
    rw [hfold] at h
    replace h : (Except.error msg : Except String (List RebalanceInstruction))
      = Except.error e := h
    cases h
    exact model_loop_error r.options r.tolerance live model model.all_tickers [] e hfold
  | ok ds =>
    rw [hfold] at h
    exact Except.noConfusion h

theorem build_not_set (r : PortfolioRebalancer)
    (h : r.live_portfolio = none ∨ r.model_portfolio = none) :
    build_rebalance_instructions r = Except.error portfoliosNotSetMsg := by
  rw [build_rebalance_instructions]
  rcases h with h | h
  · rw [h]
  · rw [h]
    cases r.live_portfolio <;> rfl

theorem build_ok_destruct (r : PortfolioRebalancer) (live model : Portfolio)
    (hl : r.live_portfolio = some live) (hm : r.model_portfolio = some model)
    (ins : List RebalanceInstruction)
    (hins : build_rebalance_instructions r = Except.ok ins) :
    ∃ ds : List (Ticker × ℚ),
      model.all_tickers.foldlM (model_delta_step r.options r.tolerance live model) []
        = Except.ok ds
      ∧ ins = (if r.options.allow_share_exchanges then
            (populate_exchange_trades r.prices r.tolerance
              (ds ++ liquidation_deltas r.tolerance live model)).1
            ++ instructions_from_deltas (populate_exchange_trades r.prices
                r.tolerance (ds ++ liquidation_deltas r.tolerance live model)).2
          else
            instructions_from_deltas (ds ++ liquidation_deltas r.tolerance live model)) := by
  rw [build_rebalance_instructions, hl, hm] at hins
  replace hins : (do
    let deltas ← model.all_tickers.foldlM
      (model_delta_step r.options r.tolerance live model) []
    let deltas := deltas ++ liquidation_deltas r.tolerance live model
    let ex :=
      if r.options.allow_share_exchanges then
        populate_exchange_trades r.prices r.tolerance deltas
      else
        ([], deltas)
    pure (ex.1 ++ instructions_from_deltas ex.2)) = Except.ok ins := hins
  cases hfold : model.all_tickers.foldlM
      (model_delta_step r.options r.tolerance live model) [] with
  | error msg =>
    rw [hfold] at hins
    exact Except.noConfusion hins
  | ok ds =>
    rw [hfold] at hins
    refine ⟨ds, rfl, ?_⟩
    replace hins : Except.ok (
        (if r.options.allow_share_exchanges then
          populate_exchange_trades r.prices r.tolerance
            (ds ++ liquidation_deltas r.tolerance live model)
        else
          ([], ds ++ liquidation_deltas r.tolerance live model)).1
        ++ instructions_from_deltas
          (if r.options.allow_share_exchanges then
            populate_exchange_trades r.prices r.tolerance
              (ds ++ liquidation_deltas r.tolerance live model)
          else
            ([], ds ++ liquidation_deltas r.tolerance live model)).2)
      = Except.ok ins := hins
    injection hins with hins
    rw [← hins]
    by_cases hex : r.options.allow_share_exchanges = true
    · simp only [if_pos hex]
    · simp only [if_neg hex]
      simp [instructions_from_deltas]

theorem build_of_fold_error (r : PortfolioRebalancer) (live model : Portfolio)
    (hl : r.live_portfolio = some live) (hm : r.model_portfolio = some model)
    (e : String)
    (h : model.all_tickers.foldlM
      (model_delta_step r.options r.tolerance live model) [] = Except.error e) :
    build_rebalance_instructions r = Except.error e := by
  rw [build_rebalance_instructions, hl, hm]
  show (do
    let deltas ← model.all_tickers.foldlM
      (model_delta_step r.options r.tolerance live model) []
    let deltas := deltas ++ liquidation_deltas r.tolerance live model
    let ex :=
      if r.options.allow_share_exchanges then
        populate_exchange_trades r.prices r.tolerance deltas
      else
        ([], deltas)
    pure (ex.1 ++ instructions_from_deltas ex.2)) = _
  rw [h]
  rfl

theorem mem_liquidation_deltas {tol : ℚ} {live model : Portfolio} {t : Ticker}
    (ht : t ∈ live.all_tickers) (htm : model.contains_ticker t = false)
    (hq : live.get_quantity t > tol) :
    (t, -(live.get_quantity t)) ∈ liquidation_deltas tol live model := by
  rw [liquidation_deltas]
  apply List.mem_filterMap.mpr
  refine ⟨t, ht, ?_⟩
  rw [htm]
  show (if true = true then
    if live.get_quantity t > tol then some (t, -(live.get_quantity t)) else none
    else none) = _
  rw [if_pos rfl, if_pos hq]

theorem mem_instructions_of_mem {ds : List (Ticker × ℚ)} {d : Ticker × ℚ}
    (h : d ∈ ds) :
    (⟨if d.2 > 0 then TransactionType.BUY else TransactionType.SELL,
      d.1, |d.2|, none, none⟩ : RebalanceInstruction)
      ∈ instructions_from_deltas ds :=
  List.mem_map_of_mem _ h

/-!
## The claims
-/

/-- C7 counterexample: the claim quantifies over every portfolio reachable
through the public operations, but `add_position` itself accepts a position
with quantity exactly `0` and stores it, so a reachable portfolio does hold a
zero-quantity entry. -/
theorem c7_counterexample :
    Portfolio.empty.add_position ⟨"A", 0⟩ = Except.ok ⟨[⟨"A", 0⟩]⟩
    ∧ ((⟨[⟨"A", 0⟩]⟩ : Portfolio).positions.any
        (fun pos => pos.quantity == 0)) = true := by
  exact ⟨rfl, rfl⟩

/-- C7 (amended): the no-duplicate-ticker invariant does hold of every
reachable portfolio — `add_position` fails with the duplicate-ticker error
exactly when the ticker is already present and otherwise appends — while the
no-zero-quantity-entry invariant holds of the portfolios the engine itself
builds: a successful `build_rebalanced_portfolio` stores no zero quantity and
no duplicate ticker. -/
theorem c7_portfolio_invariants :
    (∀ (p : Portfolio) (pos : Position),
      (p.contains_ticker pos.ticker = true →
        p.add_position pos
          = Except.error ("Ticker '" ++ pos.ticker ++ "' was already added"))
      ∧ (p.contains_ticker pos.ticker = false →
        p.add_position pos = Except.ok ⟨p.positions ++ [pos]⟩))
    ∧ (∀ (r : PortfolioRebalancer) (pf : Portfolio),
        build_rebalanced_portfolio r = Except.ok pf →
        (∀ pos ∈ pf.positions, pos.quantity ≠ 0)
        ∧ (pf.positions.map Position.ticker).Nodup) := by
  constructor
  · intro p pos
    exact ⟨fun h => add_position_of_contains h,
           fun h => add_position_of_not_contains h⟩
  · intro r pf h
    rw [build_rebalanced_portfolio] at h
    cases hb : build_rebalance_instructions r with
    | error msg =>
      rw [hb] at h
      exact Except.noConfusion h
    | ok ins =>
      rw [hb] at h
      cases hl : r.live_portfolio with
      | none =>
        rw [hl] at h
        exact Except.noConfusion h
      | some live =>
        rw [hl] at h
        replace h : portfolio_of_rebalanced
            (ins.foldl apply_instruction
              (live.all_tickers.map (fun t => (t, live.get_quantity t))))
          = Except.ok pf := h
        rw [portfolio_of_rebalanced] at h
        constructor
        · intro pos hmem
          rcases fold_add_nonzero_go _ Portfolio.empty pf h pos hmem with h1 | h1
          · exact absurd h1 (by simp [Portfolio.empty])
          · exact h1
        · exact fold_add_nodup_go _ Portfolio.empty pf h (by simp [Portfolio.empty])

/-- C8: `build_rebalance_instructions` fails with the `PortfoliosNotSet` error
exactly when at least one of the two portfolios has not been assigned; an
assigned but empty portfolio does not trigger it (a `Portfolio` instance is
always truthy), and on that error path the computation produces no
instruction list. -/
theorem c8_portfolios_not_set (r : PortfolioRebalancer) :
    build_rebalance_instructions r = Except.error portfoliosNotSetMsg
      ↔ (r.live_portfolio = none ∨ r.model_portfolio = none) := by
  constructor
  · intro h
    by_contra hc
    push_neg at hc
    obtain ⟨h1, h2⟩ := hc
    cases hl : r.live_portfolio with
    | none => exact h1 hl
    | some live =>
      cases hm : r.model_portfolio with
      | none => exact h2 hm
      | some model =>
        have hmsg := build_error_msg r live model hl hm _ h
        have hne : portfoliosNotSetMsg ≠ roundingRequiredMsg := by decide
        exact hne hmsg
  · exact build_not_set r

/-- C8 witness: with both portfolios assigned — even empty ones — the
`PortfoliosNotSet` error is not raised, while it is raised when the live
portfolio is missing. -/
theorem c8_witness :
    build_rebalance_instructions
        ⟨⟨[]⟩, ⟨0, false, true, none⟩, DEFAULT_TOLERANCE,
         some Portfolio.empty, some Portfolio.empty⟩
      ≠ Except.error portfoliosNotSetMsg
    ∧ build_rebalance_instructions
        ⟨⟨[]⟩, ⟨0, false, true, none⟩, DEFAULT_TOLERANCE,
         none, some Portfolio.empty⟩
      = Except.error portfoliosNotSetMsg := by
  constructor
  · intro h
    have hc := (c8_portfolios_not_set _).mp h
    simp at hc
  · exact (c8_portfolios_not_set _).mpr (Or.inl rfl)

/-- C7 witness: a fresh insertion into an empty portfolio succeeds and appends
the position. -/
theorem c7_witness :
    Portfolio.empty.add_position ⟨"B", 1⟩ = Except.ok ⟨[⟨"B", 1⟩]⟩ :=
  (c7_portfolio_invariants.1 Portfolio.empty ⟨"B", 1⟩).2 rfl

/-- The engine of the C1 counterexample: fractional shares disallowed with
NEAREST rounding, no exchanges, default tolerance, and a live-only holding of
2.5 shares of XXX (model portfolio assigned but empty). -/
def c1_rebalancer : PortfolioRebalancer :=
  ⟨⟨[]⟩, ⟨0, false, false, some RoundingBehavior.NEAREST⟩, DEFAULT_TOLERANCE,
   some ⟨[⟨"XXX", 5/2⟩]⟩, some ⟨[]⟩⟩

/-- C1 counterexample: with fractional shares disallowed and NEAREST rounding,
the live-only ticker XXX with quantity 2.5 is liquidated with the unrounded
SELL quantity 2.5 — the rounding rule of step 3 is not applied to the
full-liquidation deltas, though the claim says it is (it would demand the
rounded magnitude `|round(-2.5)| = 2 ≠ 2.5`). -/
theorem c1_counterexample :
    build_rebalance_instructions c1_rebalancer
      = Except.ok [⟨TransactionType.SELL, "XXX", 5/2, none, none⟩]
    ∧ |((pyRound (-(5/2 : ℚ)) : ℤ) : ℚ)| ≠ (5 : ℚ)/2 := by
  constructor
  · with_unfolding_all decide
  · with_unfolding_all decide

/-- C1 (amended): every ticker held live, absent from the model portfolio and
with quantity above the tolerance receives the full-liquidation delta
`-liveQty(ticker)` with no rounding applied (even when fractional shares are
disallowed), and — when share exchanges are disabled — the instruction list
contains `SELL(ticker, liveQty(ticker))`, fully liquidating the ticker. -/
theorem c1_full_liquidation (r : PortfolioRebalancer) (live model : Portfolio)
    (hl : r.live_portfolio = some live) (hm : r.model_portfolio = some model)
    (hex : r.options.allow_share_exchanges = false)
    (htol : 0 ≤ r.tolerance)
    (ins : List RebalanceInstruction)
    (hins : build_rebalance_instructions r = Except.ok ins)
    (t : Ticker) (ht : t ∈ live.all_tickers)
    (htm : model.contains_ticker t = false)
    (hq : live.get_quantity t > r.tolerance) :
    (⟨TransactionType.SELL, t, live.get_quantity t, none, none⟩
      : RebalanceInstruction) ∈ ins := by
  obtain ⟨ds, hfold, hshape⟩ := build_ok_destruct r live model hl hm ins hins
  rw [if_neg (by rw [hex]; exact Bool.false_ne_true)] at hshape
  subst hshape
  have hmem : (t, -(live.get_quantity t))
      ∈ ds ++ liquidation_deltas r.tolerance live model :=
    List.mem_append_right _ (mem_liquidation_deltas ht htm hq)
  have hmem2 := mem_instructions_of_mem hmem
  have hq0 : 0 < live.get_quantity t := lt_of_le_of_lt htol hq
  have heq : (⟨if ((t, -(live.get_quantity t)) : Ticker × ℚ).2 > 0 then
        TransactionType.BUY else TransactionType.SELL,
      ((t, -(live.get_quantity t)) : Ticker × ℚ).1,
      |((t, -(live.get_quantity t)) : Ticker × ℚ).2|, none, none⟩
      : RebalanceInstruction)
      = ⟨TransactionType.SELL, t, live.get_quantity t, none, none⟩ := by
    show (⟨if -(live.get_quantity t) > 0 then TransactionType.BUY
        else TransactionType.SELL, t, |(-(live.get_quantity t))|, none, none⟩
      : RebalanceInstruction) = _
    rw [if_neg (not_lt.mpr (neg_nonpos.mpr hq0.le)), abs_neg, abs_of_pos hq0]
  rwa [heq] at hmem2

/-- The engine of the C1 witness: a live-only holding of 3 shares of YYY. -/
def c1_witness_rebalancer : PortfolioRebalancer :=
  ⟨⟨[]⟩, ⟨0, false, false, some RoundingBehavior.NEAREST⟩, DEFAULT_TOLERANCE,
   some ⟨[⟨"YYY", 3⟩]⟩, some ⟨[]⟩⟩

/-- C1 witness: the amended claim at a concrete input. -/
theorem c1_witness :
    (⟨TransactionType.SELL, "YYY", 3, none, none⟩ : RebalanceInstruction)
      ∈ [⟨TransactionType.SELL, "YYY", 3, none, none⟩] := by
  have h := c1_full_liquidation c1_witness_rebalancer ⟨[⟨"YYY", 3⟩]⟩ ⟨[]⟩
    rfl rfl rfl (by norm_num [c1_witness_rebalancer, DEFAULT_TOLERANCE])
    [⟨TransactionType.SELL, "YYY", 3, none, none⟩]
    (by with_unfolding_all decide)
    "YYY" (by with_unfolding_all decide) rfl
    (by with_unfolding_all decide)
  have hg : ((⟨[⟨"YYY", 3⟩]⟩ : Portfolio)).get_quantity "YYY" = 3 := by
    with_unfolding_all decide
  rw [hg] at h
  exact h

/-- The engine of the C10 demonstration: its own tolerance is 1 (not the
default), fractional shares allowed, no exchanges, live 10 shares of A against
a model of 10.5 shares. -/
def c10_rebalancer : PortfolioRebalancer :=
  ⟨⟨[("A", 1)]⟩, ⟨0, false, true, none⟩, 1,
   some ⟨[⟨"A", 10⟩]⟩, some ⟨[⟨"A", 21/2⟩]⟩⟩

/-- C10: the validator engine built inside `validate` always carries
`DEFAULT_TOLERANCE`, not the outer engine's tolerance (the constructor is
called without a tolerance argument), with the outer prices and options;
hence the concrete engine with tolerance 1 emits no instruction itself (its
0.5-share delta is below its own tolerance) and yet `validate` fails, because
the re-run drops deltas against 0.01 instead of 1. -/
theorem c10_validator_tolerance :
    (∀ (r : PortfolioRebalancer) (v : PortfolioRebalancer),
      validate_validator r = Except.ok v →
      v.tolerance = DEFAULT_TOLERANCE ∧ v.options = r.options
        ∧ v.prices = r.prices)
    ∧ (c10_rebalancer.tolerance = 1
        ∧ build_rebalance_instructions c10_rebalancer = Except.ok []
        ∧ validate c10_rebalancer = Except.error (didNotConvergeMsg 1)) := by
  constructor
  · intro r v h
    rw [validate_validator] at h
    cases hb : build_rebalanced_portfolio r with
    | error msg =>
      rw [hb] at h
      exact Except.noConfusion h
    | ok rebalanced =>
      rw [hb] at h
      replace h : Except.ok (((PortfolioRebalancer.mk' r.prices
          r.options).set_model_portfolio
          (match r.model_portfolio with
           | some m => m
           | none => Portfolio.empty)).set_live_portfolio rebalanced)
        = Except.ok v := h
      injection h with h
      subst h
      exact ⟨rfl, rfl, rfl⟩
  · refine ⟨rfl, ?_, ?_⟩
    · with_unfolding_all decide
    · with_unfolding_all decide

/-- C10 witness: the general half of the theorem applied at the concrete
engine (whose rebalanced portfolio equals its live portfolio). -/
theorem c10_witness :
    (((PortfolioRebalancer.mk' (⟨[("A", 1)]⟩ : PriceLookup)
        (⟨0, false, true, none⟩ : RebalanceOptions)).set_model_portfolio
        ⟨[⟨"A", 21/2⟩]⟩).set_live_portfolio ⟨[⟨"A", 10⟩]⟩).tolerance
      = DEFAULT_TOLERANCE := by
  have h := (c10_validator_tolerance.1 c10_rebalancer
    (((PortfolioRebalancer.mk' (⟨[("A", 1)]⟩ : PriceLookup)
        (⟨0, false, true, none⟩ : RebalanceOptions)).set_model_portfolio
        ⟨[⟨"A", 21/2⟩]⟩).set_live_portfolio ⟨[⟨"A", 10⟩]⟩)
    (by with_unfolding_all decide)).1
  exact h

/-- `pyRound` picks a nearest integer: the rounded value is within one half of
the argument. -/
theorem pyRound_nearest (q : ℚ) : |q - ((pyRound q : ℤ) : ℚ)| ≤ 1 / 2 := by
  have h0 : ((⌊q⌋ : ℤ) : ℚ) ≤ q := Int.floor_le q
  have h1 : q < ((⌊q⌋ : ℤ) : ℚ) + 1 := Int.lt_floor_add_one q
  rw [abs_le, pyRound]
  by_cases hc : q - ((⌊q⌋ : ℤ) : ℚ) < 1 / 2
  · rw [if_pos hc]
    constructor <;> linarith
  · rw [if_neg hc]
    by_cases hc2 : q - ((⌊q⌋ : ℤ) : ℚ) > 1 / 2
    · rw [if_pos hc2]
      constructor <;> push_cast <;> linarith
    · rw [if_neg hc2]
      by_cases hc3 : ⌊q⌋ % 2 = 0
      · rw [if_pos hc3]
        constructor <;> linarith
      · rw [if_neg hc3]
        constructor <;> push_cast <;> linarith

/-- C4: with fractional shares disallowed, each model-ticker delta is rounded
per the rounding behavior — NEAREST via Python's `round` (which lands on a
nearest integer), UP via ceiling toward positive infinity, DOWN via floor
toward negative infinity — a missing behavior raises the
rounding-behavior-required error (as soon as a model ticker is processed),
and afterwards (round first, then drop) exactly the tickers whose rounded
delta has absolute value below the tolerance are dropped from the delta map,
the others entering it with the rounded value. -/
theorem c4_rounding_and_drop (o : RebalanceOptions)
    (hfrac : o.allow_fractional_shares = false) :
    (∀ δ : ℚ,
      (o.rounding_behavior = some RoundingBehavior.NEAREST →
        round_delta o δ = Except.ok ((pyRound δ : ℤ) : ℚ)
          ∧ |δ - ((pyRound δ : ℤ) : ℚ)| ≤ 1 / 2)
      ∧ (o.rounding_behavior = some RoundingBehavior.UP →
        round_delta o δ = Except.ok ((⌈δ⌉ : ℤ) : ℚ))
      ∧ (o.rounding_behavior = some RoundingBehavior.DOWN →
        round_delta o δ = Except.ok ((⌊δ⌋ : ℤ) : ℚ))
      ∧ (o.rounding_behavior = none →
        round_delta o δ = Except.error roundingRequiredMsg))
    ∧ (∀ (r : PortfolioRebalancer) (live model : Portfolio),
        r.options = o → r.live_portfolio = some live →
        r.model_portfolio = some model → o.rounding_behavior = none →
        model.all_tickers ≠ [] →
        build_rebalance_instructions r = Except.error roundingRequiredMsg)
    ∧ (∀ (tol : ℚ) (live model : Portfolio) (ρ : ℚ → ℚ),
        (∀ δ, round_delta o δ = Except.ok (ρ δ)) →
        model.all_tickers.foldlM (model_delta_step o tol live model) []
          = Except.ok (model.all_tickers.filterMap (fun t =>
              let δ := ρ (model.get_quantity t - live.get_quantity t)
              if |δ| < tol then none else some (t, δ)))) := by
  refine ⟨?_, ?_, ?_⟩
  · intro δ
    exact ⟨fun h => ⟨round_delta_nearest hfrac h δ, pyRound_nearest δ⟩,
           fun h => round_delta_up hfrac h δ,
           fun h => round_delta_down hfrac h δ,
           fun h => round_delta_none hfrac h δ⟩
  · intro r live model ho hl hm hb hne
    cases hts : model.all_tickers with
    | nil => exact absurd hts hne
    | cons t ts =>
      apply build_of_fold_error r live model hl hm
      rw [hts, List.foldlM_cons]
      have hstep := model_delta_step_error r.options r.tolerance live model [] t
        roundingRequiredMsg (by rw [ho]; exact round_delta_none hfrac hb _)
      rw [hstep]
      rfl
  · intro tol live model ρ hρ
    have h := model_loop_ok o tol live model ρ hρ model.all_tickers []
    rw [h]
    simp

/-- C4 witness: the NEAREST rule at the concrete delta 2.5 (rounding to the
even neighbor 2) and the drop rule on a concrete model. -/
theorem c4_witness :
    round_delta ⟨0, false, false, some RoundingBehavior.NEAREST⟩ (5 / 2)
      = Except.ok 2 := by
  have h := ((c4_rounding_and_drop
    ⟨0, false, false, some RoundingBehavior.NEAREST⟩ rfl).1 (5 / 2)).1 rfl
  rw [h.1]
  with_unfolding_all decide

theorem generate_fold_go (prices : PriceLookup) (tv : ℚ)
    (mps : List ModelPosition) :
    ∀ pf : Portfolio,
    (pf.positions.map Position.ticker ++ mps.map ModelPosition.ticker).Nodup →
    mps.foldlM (fun pf mp =>
      let price := prices.get_price mp.ticker
      let quantity := tv * mp.target_percentage / 100 / price
      if quantity > 0 then pf.add_position ⟨mp.ticker, quantity⟩ else pure pf) pf
    = Except.ok ⟨pf.positions ++ mps.filterMap (fun mp =>
        let price := prices.get_price mp.ticker
        let quantity := tv * mp.target_percentage / 100 / price
        if quantity > 0 then some ⟨mp.ticker, quantity⟩ else none)⟩ := by
  induction mps with
  | nil =>
    intro pf _
    obtain ⟨ps⟩ := pf
    show Except.ok (Portfolio.mk ps) = _
    simp
  | cons mp mps ih =>
    intro pf hnodup
    rw [List.foldlM_cons]
    show (if tv * mp.target_percentage / 100 / prices.get_price mp.ticker > 0 then
        pf.add_position ⟨mp.ticker,
          tv * mp.target_percentage / 100 / prices.get_price mp.ticker⟩
      else pure pf) >>= _ = _
    by_cases hq : tv * mp.target_percentage / 100 / prices.get_price mp.ticker > 0
    · rw [if_pos hq]
      have hnotin : mp.ticker ∉ pf.positions.map Position.ticker := by
        intro hmem
        rw [List.nodup_append] at hnodup
        exact hnodup.2.2 hmem (by simp)
      rw [add_position_of_not_contains (contains_ticker_eq_false_iff.mpr hnotin)]
      have hn2 : ((pf.positions ++ [(⟨mp.ticker,
          tv * mp.target_percentage / 100 / prices.get_price mp.ticker⟩
            : Position)]).map Position.ticker
          ++ mps.map ModelPosition.ticker).Nodup := by
        rw [List.map_append, List.append_assoc]
        simpa using hnodup
      have hih := ih ⟨pf.positions ++ [⟨mp.ticker,
        tv * mp.target_percentage / 100 / prices.get_price mp.ticker⟩]⟩ hn2
      change List.foldlM _ (⟨pf.positions ++ [⟨mp.ticker,
        tv * mp.target_percentage / 100 / prices.get_price mp.ticker⟩]⟩
          : Portfolio) mps = _
      rw [hih, List.filterMap_cons]
      simp only [hq, if_pos]
      simp
    · rw [if_neg hq]
      have hsub : (pf.positions.map Position.ticker
          ++ mps.map ModelPosition.ticker).Sublist
          (pf.positions.map Position.ticker
            ++ (mp :: mps).map ModelPosition.ticker) := by
        apply List.Sublist.append_left
        simp
      have hih := ih pf (hsub.nodup hnodup)
      change List.foldlM _ pf mps = _
      rw [hih, List.filterMap_cons]
      simp only [hq, if_neg]
      simp [hq]

/-- C6: `generate_model_portfolio` fails with the percentages message exactly
when the percentage sum is farther than the tolerance from 100; otherwise it
returns the portfolio holding, for each model position whose computed
quantity `(targetTotalValue * pct / 100) / price` is strictly positive,
exactly that quantity — positions implying zero or negative quantity are
absent. -/
theorem c6_generate_model_portfolio (b : ModelPortfolioBuilder)
    (hnodup : (b.model_positions.map ModelPosition.ticker).Nodup)
    (_hpos : ∀ mp ∈ b.model_positions, 0 < b.prices.get_price mp.ticker) :
    (b.generate_model_portfolio = Except.error percentagesMsg
       ↔ |(b.model_positions.map ModelPosition.target_percentage).sum - 100|
           > b.tolerance)
    ∧ (|(b.model_positions.map ModelPosition.target_percentage).sum - 100|
         ≤ b.tolerance →
      b.generate_model_portfolio
        = Except.ok ⟨b.model_positions.filterMap (fun mp =>
            let price := b.prices.get_price mp.ticker
            let quantity := b.target_value * mp.target_percentage / 100 / price
            if quantity > 0 then some ⟨mp.ticker, quantity⟩ else none)⟩) := by
  have key : ∀ _ : ¬ (|(b.model_positions.map ModelPosition.target_percentage).sum
        - 100| > b.tolerance),
      b.generate_model_portfolio
        = Except.ok ⟨b.model_positions.filterMap (fun mp =>
            let price := b.prices.get_price mp.ticker
            let quantity := b.target_value * mp.target_percentage / 100 / price
            if quantity > 0 then some ⟨mp.ticker, quantity⟩ else none)⟩ := by
    intro hc
    rw [ModelPortfolioBuilder.generate_model_portfolio]
    rw [if_neg hc]
    have h := generate_fold_go b.prices b.target_value b.model_positions
      Portfolio.empty (by simpa [Portfolio.empty] using hnodup)
    rw [h]
    simp [Portfolio.empty]
  constructor
  · constructor
    · intro h
      by_contra hc
      rw [key hc] at h
      exact Except.noConfusion h
    · intro hgt
      rw [ModelPortfolioBuilder.generate_model_portfolio, if_pos hgt]
  · intro hle
    exact key (not_lt.mpr hle)

/-- The model builder of the C6 witness: the default test-suite setup. -/
def c6_builder : ModelPortfolioBuilder :=
  ⟨⟨[("AAA", 100), ("BBB", 200)]⟩, 4000, DEFAULT_TOLERANCE,
   [⟨"AAA", 50⟩, ⟨"BBB", 50⟩]⟩

/-- C6 witness: the concrete 50/50 model over AAA/BBB at a 4000 target builds
the portfolio {AAA: 20, BBB: 10}. -/
theorem c6_witness :
    c6_builder.generate_model_portfolio
      = Except.ok ⟨[⟨"AAA", 20⟩, ⟨"BBB", 10⟩]⟩ := by
  have h := (c6_generate_model_portfolio c6_builder
    (by decide) (by with_unfolding_all decide)).2 (by with_unfolding_all decide)
  rw [h]
  with_unfolding_all decide

/-!
## State-passing view of a run (for the purity claim)

Each `Portfolio` accessor below returns the method's result together with the
receiving object's state after the call; the method bodies in `Portfolio.py`
only read `self.positions` (no statement assigns), which the embedding records
by returning the receiver as the post-state.  The engine run is then threaded
through these stateful calls, so that "a run does not mutate the
caller-supplied portfolios" and "two consecutive runs agree" become provable
statements about the threaded run.
-/

/-- Stateful `all_tickers`. -/
def Portfolio.all_tickersS (p : Portfolio) : List Ticker × Portfolio :=
  (p.positions.map Position.ticker, p)

/-- Stateful `get_quantity`. -/
def Portfolio.get_quantityS (p : Portfolio) (t : Ticker) : ℚ × Portfolio :=
  (match p.positions.find? (fun pos => pos.ticker == t) with
   | some pos => pos.quantity
   | none => 0, p)

/-- Stateful `contains_ticker`. -/
def Portfolio.contains_tickerS (p : Portfolio) (t : Ticker) : Bool × Portfolio :=
  (p.positions.any (fun pos => pos.ticker == t), p)

/-- The model-ticker loop with the two portfolio states threaded through
every method call. -/
def model_deltas_run (o : RebalanceOptions) (tol : ℚ) :
    List Ticker → Portfolio → Portfolio → List (Ticker × ℚ) →
    Except String (List (Ticker × ℚ)) × Portfolio × Portfolio
  | [], live, model, acc => (Except.ok acc, live, model)
  | t :: ts, live, model, acc =>
    let rm := model.get_quantityS t
    let rl := rl_step rm.2 live t
    match round_delta o (rm.1 - rl.1) with
    | Except.error e => (Except.error e, rl.2.2, rl.2.1)
    | Except.ok delta =>
      model_deltas_run o tol ts rl.2.2 rl.2.1
        (if |delta| < tol then acc else acc ++ [(t, delta)])
where
  /-- The live-quantity read of one iteration, with states. -/
  rl_step (model live : Portfolio) (t : Ticker) : ℚ × Portfolio × Portfolio :=
    let rl := live.get_quantityS t
    (rl.1, model, rl.2)

/-- The live-only liquidation loop with the portfolio states threaded. -/
def liquidation_run (tol : ℚ) :
    List Ticker → Portfolio → Portfolio → List (Ticker × ℚ) →
    List (Ticker × ℚ) × Portfolio × Portfolio
  | [], live, model, acc => (acc, live, model)
  | t :: ts, live, model, acc =>
    let rc := model.contains_tickerS t
    if !rc.1 then
      let rq := live.get_quantityS t
      liquidation_run tol ts rq.2 rc.2
        (if rq.1 > tol then acc ++ [(t, -rq.1)] else acc)
    else
      liquidation_run tol ts live rc.2 acc

/-- The checked part of the threaded run: both portfolios present, every
`Portfolio` method call threaded.  Returns the result together with the final
states of the live and model portfolios. -/
def build_run_core (r : PortfolioRebalancer) (live model : Portfolio) :
    Except String (List RebalanceInstruction) × Portfolio × Portfolio :=
  match model.all_tickersS with
  | (mts, model) =>
    match model_deltas_run r.options r.tolerance mts live model [] with
    | (Except.error e, live, model) => (Except.error e, live, model)
    | (Except.ok ds, live, model) =>
      match live.all_tickersS with
      | (lts, live) =>
        match liquidation_run r.tolerance lts live model [] with
        | (lds, live, model) =>
          let deltas := ds ++ lds
          let ex :=
            if r.options.allow_share_exchanges then
              populate_exchange_trades r.prices r.tolerance deltas
            else ([], deltas)
          (Except.ok (ex.1 ++ instructions_from_deltas ex.2), live, model)

/-- `build_rebalance_instructions` with the caller-supplied portfolios
threaded through every method call; the second component is the engine state
after the run. -/
def build_rebalance_instructions_run (r : PortfolioRebalancer) :
    Except String (List RebalanceInstruction) × PortfolioRebalancer :=
  match r.live_portfolio, r.model_portfolio with
  | some live, some model =>
    let c := build_run_core r live model
    (c.1, { r with live_portfolio := some c.2.1,
                   model_portfolio := some c.2.2 })
  | _, _ => (Except.error portfoliosNotSetMsg, r)

theorem get_quantityS_eq (p : Portfolio) (t : Ticker) :
    p.get_quantityS t = (p.get_quantity t, p) := rfl

theorem model_deltas_run_eq (o : RebalanceOptions) (tol : ℚ) :
    ∀ (ts : List Ticker) (live model : Portfolio) (acc : List (Ticker × ℚ)),
    model_deltas_run o tol ts live model acc
      = (ts.foldlM (model_delta_step o tol live model) acc, live, model) := by
  intro ts
  induction ts with
  | nil =>
    intro live model acc
    rw [model_deltas_run]
    rw [show ([] : List Ticker).foldlM (model_delta_step o tol live model) acc
      = Except.ok acc from rfl]
  | cons t ts ih =>
    intro live model acc
    rw [model_deltas_run, List.foldlM_cons]
    cases hr : round_delta o (model.get_quantity t - live.get_quantity t) with
    | error e =>
      rw [show round_delta o ((model.get_quantityS t).1
          - (model_deltas_run.rl_step (model.get_quantityS t).2 live t).1)
        = round_delta o (model.get_quantity t - live.get_quantity t) from rfl]
      rw [hr, model_delta_step_error o tol live model acc t e hr]
      rfl
    | ok delta =>
      rw [show round_delta o ((model.get_quantityS t).1
          - (model_deltas_run.rl_step (model.get_quantityS t).2 live t).1)
        = round_delta o (model.get_quantity t - live.get_quantity t) from rfl]
      rw [hr, model_delta_step_ok o tol live model acc t delta hr]
      show model_deltas_run o tol ts _ _
        (if |delta| < tol then acc else acc ++ [(t, delta)]) = _
      by_cases hlt : |delta| < tol
      · rw [if_pos hlt, if_pos hlt]
        exact ih live model acc
      · rw [if_neg hlt, if_neg hlt]
        exact ih live model (acc ++ [(t, delta)])

theorem liquidation_run_eq (tol : ℚ) :
    ∀ (ts : List Ticker) (live model : Portfolio) (acc : List (Ticker × ℚ)),
    liquidation_run tol ts live model acc
      = (acc ++ ts.filterMap (fun t =>
          if !model.contains_ticker t then
            if live.get_quantity t > tol then some (t, -(live.get_quantity t))
            else none
          else none), live, model) := by
  intro ts
  induction ts with
  | nil =>
    intro live model acc
    rw [liquidation_run]
    simp
  | cons t ts ih =>
    intro live model acc
    rw [liquidation_run, List.filterMap_cons]
    by_cases hc : model.contains_ticker t = true
    · rw [show (model.contains_tickerS t).1 = model.contains_ticker t from rfl, hc]
      show liquidation_run tol ts live model acc = _
      rw [ih live model acc]
      rfl
    · rw [Bool.not_eq_true] at hc
      rw [show (model.contains_tickerS t).1 = model.contains_ticker t from rfl, hc]
      show liquidation_run tol ts live model
        (if live.get_quantity t > tol then acc ++ [(t, -(live.get_quantity t))]
         else acc) = _
      rw [ih]
      by_cases hq : live.get_quantity t > tol
      · simp only [if_pos hq]
        simp
      · simp only [if_neg hq]
        rfl

theorem build_run_core_eq (r : PortfolioRebalancer) (live model : Portfolio) :
    build_run_core r live model
      = ((do
          let ds ← model.all_tickers.foldlM
            (model_delta_step r.options r.tolerance live model) []
          let deltas := ds ++ liquidation_deltas r.tolerance live model
          let ex :=
            if r.options.allow_share_exchanges then
              populate_exchange_trades r.prices r.tolerance deltas
            else ([], deltas)
          pure (ex.1 ++ instructions_from_deltas ex.2)), live, model) := by
  rw [build_run_core]
  rw [show model.all_tickersS = (model.all_tickers, model) from rfl]
  show (match model_deltas_run r.options r.tolerance model.all_tickers live model [] with
    | (Except.error e, live, model) => (Except.error e, live, model)
    | (Except.ok ds, live, model) =>
      match live.all_tickersS with
      | (lts, live) =>
        match liquidation_run r.tolerance lts live model [] with
        | (lds, live, model) =>
          let deltas := ds ++ lds
          let ex :=
            if r.options.allow_share_exchanges then
              populate_exchange_trades r.prices r.tolerance deltas
            else ([], deltas)
          (Except.ok (ex.1 ++ instructions_from_deltas ex.2), live, model)) = _
  rw [model_deltas_run_eq r.options r.tolerance model.all_tickers live model []]
  cases hfold : model.all_tickers.foldlM
      (model_delta_step r.options r.tolerance live model) [] with
  | error e => rfl
  | ok ds =>
    show (match live.all_tickersS with
      | (lts, live') =>
        match liquidation_run r.tolerance lts live' model [] with
        | (lds, live'', model') =>
          let deltas := ds ++ lds
          let ex :=
            if r.options.allow_share_exchanges then
              populate_exchange_trades r.prices r.tolerance deltas
            else ([], deltas)
          (Except.ok (ex.1 ++ instructions_from_deltas ex.2), live'', model')) = _
    rw [show live.all_tickersS = (live.all_tickers, live) from rfl]
    show (match liquidation_run r.tolerance live.all_tickers live model [] with
      | (lds, live'', model') =>
        let deltas := ds ++ lds
        let ex :=
          if r.options.allow_share_exchanges then
            populate_exchange_trades r.prices r.tolerance deltas
          else ([], deltas)
        (Except.ok (ex.1 ++ instructions_from_deltas ex.2), live'', model')) = _
    rw [liquidation_run_eq r.tolerance live.all_tickers live model []]
    rfl

theorem build_run_eq (r : PortfolioRebalancer) :
    build_rebalance_instructions_run r = (build_rebalance_instructions r, r) := by
  rw [build_rebalance_instructions_run, build_rebalance_instructions]
  cases hl : r.live_portfolio with
  | none => rfl
  | some live =>
    cases hm : r.model_portfolio with
    | none => rfl
    | some model =>
      show ((build_run_core r live model).1,
        { r with live_portfolio := some (build_run_core r live model).2.1,
                 model_portfolio := some (build_run_core r live model).2.2 }) = _
      rw [build_run_core_eq r live model]
      obtain ⟨pr, o, tol, lp, mp⟩ := r
      simp only at hl hm
      subst hl
      subst hm
      rfl

/-- C9: for a fixed engine state (live portfolio, model portfolio, price
oracle, options, tolerance), the state-threaded run leaves the
caller-supplied live and model portfolios exactly as they were, running the
engine twice in sequence produces identical instruction lists, and the
threaded run's result coincides with the plain functional embedding --- one
run is a pure function of its inputs with no mutation of caller state. -/
theorem c9_pure_deterministic_runs (r : PortfolioRebalancer) :
    ((build_rebalance_instructions_run r).2.live_portfolio = r.live_portfolio
      ∧ (build_rebalance_instructions_run r).2.model_portfolio
          = r.model_portfolio)
    ∧ (build_rebalance_instructions_run
        ((build_rebalance_instructions_run r).2)).1
      = (build_rebalance_instructions_run r).1
    ∧ (build_rebalance_instructions_run r).1 = build_rebalance_instructions r := by
  rw [build_run_eq]
  rw [show ((build_rebalance_instructions r, r) : _ × PortfolioRebalancer).2
    = r from rfl]
  rw [build_run_eq]
  exact ⟨⟨rfl, rfl⟩, rfl, rfl⟩

/-!
## Heap order lemmas (for the exchange-matching claims)
-/

theorem tupLt_eq_true_iff {a b : ℚ × Ticker} :
    tupLt a b = true ↔ a.1 < b.1 ∨ (a.1 = b.1 ∧ a.2 < b.2) := by
  simp [tupLt]

theorem tupLt_eq_false_iff {a b : ℚ × Ticker} :
    tupLt a b = false ↔ ¬ a.1 < b.1 ∧ (a.1 = b.1 → ¬ a.2 < b.2) := by
  rw [← Bool.not_eq_true, tupLt_eq_true_iff]
  constructor
  · intro h
    exact ⟨fun h1 => h (Or.inl h1), fun he h2 => h (Or.inr ⟨he, h2⟩)⟩
  · rintro ⟨h1, h2⟩ (hc | ⟨he, hc⟩)
    · exact h1 hc
    · exact h2 he hc

theorem tupLt_irrefl (a : ℚ × Ticker) : tupLt a a = false := by
  rw [tupLt_eq_false_iff]
  exact ⟨lt_irrefl _, fun _ => lt_irrefl _⟩

theorem tupLt_asymm {a b : ℚ × Ticker} (h : tupLt a b = true) :
    tupLt b a = false := by
  rw [tupLt_eq_true_iff] at h
  rw [tupLt_eq_false_iff]
  rcases h with h | ⟨he, h⟩
  · exact ⟨fun h2 => absurd h (not_lt.mpr h2.le), fun he2 => absurd he2.symm (ne_of_lt h)⟩
  · exact ⟨fun h2 => absurd he (ne_of_gt h2), fun _ h2 => absurd h (not_lt.mpr h2.le)⟩

theorem tupLt_false_trans {x y z : ℚ × Ticker}
    (h1 : tupLt y x = false) (h2 : tupLt z y = false) : tupLt z x = false := by
  rw [tupLt_eq_false_iff] at h1 h2 ⊢
  obtain ⟨h1a, h1b⟩ := h1
  obtain ⟨h2a, h2b⟩ := h2
  have hxy : x.1 ≤ y.1 := not_lt.mp h1a
  have hyz : y.1 ≤ z.1 := not_lt.mp h2a
  constructor
  · exact not_lt.mpr (hxy.trans hyz)
  · intro he
    have he1 : x.1 = y.1 := le_antisymm hxy (he ▸ hyz)
    have he2 : z.1 = y.1 := by rw [he, he1]
    have hb1 : x.2 ≤ y.2 := not_lt.mp (h1b he1.symm)
    have hb2 : y.2 ≤ z.2 := not_lt.mp (h2b he2)
    exact not_lt.mpr (hb1.trans hb2)

theorem heap_pop_mem {l : List (ℚ × Ticker)} {m : ℚ × Ticker}
    {rest : List (ℚ × Ticker)} (h : heap_pop l = some (m, rest)) : m ∈ l := by
  induction l generalizing m rest with
  | nil => simp [heap_pop] at h
  | cons x xs ih =>
    cases hx : heap_pop xs with
    | none =>
      simp only [heap_pop, hx] at h
      injection h with h1
      injection h1 with h2 h3
      subst h2
      exact List.mem_cons_self _ _
    | some p =>
      obtain ⟨m', rest'⟩ := p
      simp only [heap_pop, hx] at h
      split at h
      · injection h with h1
        injection h1 with h2 h3
        subst h2
        exact List.mem_cons_of_mem _ (ih hx)
      · injection h with h1
        injection h1 with h2 h3
        subst h2
        exact List.mem_cons_self _ _

theorem heap_pop_rest_mem {l : List (ℚ × Ticker)} {m : ℚ × Ticker}
    {rest : List (ℚ × Ticker)} (h : heap_pop l = some (m, rest)) :
    ∀ x ∈ rest, x ∈ l := by
  induction l generalizing m rest with
  | nil => simp [heap_pop] at h
  | cons x xs ih =>
    cases hx : heap_pop xs with
    | none =>
      simp only [heap_pop, hx] at h
      injection h with h1
      injection h1 with h2 h3
      subst h3
      intro y hy
      cases hy
    | some p =>
      obtain ⟨m', rest'⟩ := p
      simp only [heap_pop, hx] at h
      split at h
      · injection h with h1
        injection h1 with h2 h3
        subst h3
        intro y hy
        rcases List.mem_cons.mp hy with rfl | hy'
        · exact List.mem_cons_self _ _
        · exact List.mem_cons_of_mem _ (ih hx y hy')
      · injection h with h1
        injection h1 with h2 h3
        subst h3
        intro y hy
        exact List.mem_cons_of_mem _ hy

theorem heap_pop_min {l : List (ℚ × Ticker)} {m : ℚ × Ticker}
    {rest : List (ℚ × Ticker)} (h : heap_pop l = some (m, rest)) :
    ∀ x ∈ l, tupLt x m = false := by
  induction l generalizing m rest with
  | nil => simp [heap_pop] at h
  | cons x xs ih =>
    cases hx : heap_pop xs with
    | none =>
      have hnil : xs = [] := heap_pop_eq_none hx
      subst hnil
      simp only [heap_pop] at h
      injection h with h1
      injection h1 with h2 h3
      subst h2
      intro y hy
      rcases List.mem_cons.mp hy with rfl | hy'
      · exact tupLt_irrefl _
      · cases hy'
    | some p =>
      obtain ⟨m', rest'⟩ := p
      simp only [heap_pop, hx] at h
      split at h
      · next hlt =>
        injection h with h1
        injection h1 with h2 h3
        subst h2
        intro y hy
        rcases List.mem_cons.mp hy with rfl | hy'
        · exact tupLt_asymm hlt
        · exact ih hx y hy'
      · next hlt =>
        injection h with h1
        injection h1 with h2 h3
        subst h2
        intro y hy
        rcases List.mem_cons.mp hy with rfl | hy'
        · exact tupLt_irrefl _
        · have h1 : tupLt m' x = false := by
            rw [← Bool.not_eq_true]
            exact hlt
          exact tupLt_false_trans h1 (ih hx y hy')

/-- One-step unfolding of the exchange loop when the buys heap is empty. -/
theorem exchange_loop_buys_empty (prices : PriceLookup) (tol : ℚ)
    (buys sells : List (ℚ × Ticker)) (acc : List RebalanceInstruction)
    (h : heap_pop buys = none) :
    exchange_loop prices tol buys sells acc = (acc, buys, sells) := by
  rw [exchange_loop]
  split
  · next buy buys' sell sells' heq1 heq2 =>
    rw [h] at heq1
    cases heq1
  · rfl

/-- One-step unfolding of the exchange loop when the sells heap is empty. -/
theorem exchange_loop_sells_empty (prices : PriceLookup) (tol : ℚ)
    (buys sells : List (ℚ × Ticker)) (acc : List RebalanceInstruction)
    (h : heap_pop sells = none) :
    exchange_loop prices tol buys sells acc = (acc, buys, sells) := by
  rw [exchange_loop]
  split
  · next buy buys' sell sells' heq1 heq2 =>
    rw [h] at heq2
    cases heq2
  · rfl

/-- One-step unfolding of the exchange loop, popped sell value strictly
greater than the popped buy value: the emitted instruction exchanges the buy
value's worth of the sell ticker for the whole buy side, and the sell ticker
is pushed back exactly when the residual fraction exceeds the tolerance. -/
theorem exchange_loop_step_sell_gt (prices : PriceLookup) (tol : ℚ)
    (buys sells : List (ℚ × Ticker)) (acc : List RebalanceInstruction)
    (b s : ℚ × Ticker) (buys' sells' : List (ℚ × Ticker))
    (hb : heap_pop buys = some (b, buys'))
    (hs : heap_pop sells = some (s, sells'))
    (hgt : |s.1| > |b.1|) :
    exchange_loop prices tol buys sells acc
      = exchange_loop prices tol buys'
          (if (|s.1| - |b.1|) / |s.1| > tol then (-(|s.1| - |b.1|), s.2) :: sells'
           else sells')
          (acc ++ [⟨TransactionType.EXCHANGE, s.2, |b.1| / prices.get_price s.2,
            some b.2, some (|b.1| / prices.get_price b.2)⟩]) := by
  rw [exchange_loop]
  split
  · next buy buys2 sell sells2 heq1 heq2 =>
    rw [hb] at heq1
    rw [hs] at heq2
    injection heq1 with heq1'
    injection heq1' with e1 e2
    injection heq2 with heq2'
    injection heq2' with e3 e4
    subst e1; subst e2; subst e3; subst e4
    rw [if_pos hgt]
  · next hno =>
    exact absurd (hno b buys' s sells' hb hs) (by simp)

/-- One-step unfolding of the exchange loop, popped buy value at least the
popped sell value: the emitted instruction exchanges the whole sell side, and
the buy ticker is pushed back exactly when the residual fraction exceeds the
tolerance. -/
theorem exchange_loop_step_sell_le (prices : PriceLookup) (tol : ℚ)
    (buys sells : List (ℚ × Ticker)) (acc : List RebalanceInstruction)
    (b s : ℚ × Ticker) (buys' sells' : List (ℚ × Ticker))
    (hb : heap_pop buys = some (b, buys'))
    (hs : heap_pop sells = some (s, sells'))
    (hle : ¬ |s.1| > |b.1|) :
    exchange_loop prices tol buys sells acc
      = exchange_loop prices tol
          (if (|b.1| - |s.1|) / |b.1| > tol then (-(|b.1| - |s.1|), b.2) :: buys'
           else buys')
          sells'
          (acc ++ [⟨TransactionType.EXCHANGE, s.2, |s.1| / prices.get_price s.2,
            some b.2, some (|s.1| / prices.get_price b.2)⟩]) := by
  rw [exchange_loop]
  split
  · next buy buys2 sell sells2 heq1 heq2 =>
    rw [hb] at heq1
    rw [hs] at heq2
    injection heq1 with heq1'
    injection heq1' with e1 e2
    injection heq2 with heq2'
    injection heq2' with e3 e4
    subst e1; subst e2; subst e3; subst e4
    rw [if_neg hle]
  · next hno =>
    exact absurd (hno b buys' s sells' hb hs) (by simp)

/-- Well-formedness of an emitted instruction, as the exchange-matching
invariants need it: an EXCHANGE carries both counter fields, its two tickers
differ, and its sell side and buy side have the same dollar value. -/
def ExchOkay (prices : PriceLookup) (i : RebalanceInstruction) : Prop :=
  i.transaction_type = TransactionType.EXCHANGE →
    ∃ ct cq, i.counter_ticker = some ct ∧ i.counter_quantity = some cq
      ∧ ct ≠ i.ticker
      ∧ i.quantity * prices.get_price i.ticker = cq * prices.get_price ct

theorem exchange_loop_invariant (prices : PriceLookup) (tol : ℚ) :
    ∀ n : ℕ, ∀ buys sells : List (ℚ × Ticker), ∀ acc : List RebalanceInstruction,
    buys.length + sells.length ≤ n →
    (∀ x ∈ buys, ∀ y ∈ sells, x.2 ≠ y.2) →
    (∀ x ∈ buys, 0 < prices.get_price x.2) →
    (∀ y ∈ sells, 0 < prices.get_price y.2) →
    (∀ i ∈ acc, ExchOkay prices i) →
    ∀ i ∈ (exchange_loop prices tol buys sells acc).1, ExchOkay prices i := by
  intro n
  induction n with
  | zero =>
    intro buys sells acc hlen _ _ _ hacc i hi
    have hb : buys = [] := List.eq_nil_of_length_eq_zero (by omega)
    subst hb
    rw [exchange_loop_buys_empty prices tol [] sells acc rfl] at hi
    exact hacc i hi
  | succ n ih =>
    intro buys sells acc hlen hdisj hpb hps hacc i hi
    cases hb : heap_pop buys with
    | none =>
      rw [exchange_loop_buys_empty prices tol buys sells acc hb] at hi
      exact hacc i hi
    | some pb =>
      obtain ⟨b, buys'⟩ := pb
      cases hs : heap_pop sells with
      | none =>
        rw [exchange_loop_sells_empty prices tol buys sells acc hs] at hi
        exact hacc i hi
      | some ps =>
        obtain ⟨s, sells'⟩ := ps
        have hbmem : b ∈ buys := heap_pop_mem hb
        have hsmem : s ∈ sells := heap_pop_mem hs
        have hblen := heap_pop_length hb
        have hslen := heap_pop_length hs
        have hbsub := heap_pop_rest_mem hb
        have hssub := heap_pop_rest_mem hs
        have hne : b.2 ≠ s.2 := hdisj b hbmem s hsmem
        have hvb : (|b.1| / prices.get_price b.2) * prices.get_price b.2 = |b.1| :=
          div_mul_cancel₀ _ (ne_of_gt (hpb b hbmem))
        have hvs : (|b.1| / prices.get_price s.2) * prices.get_price s.2 = |b.1| :=
          div_mul_cancel₀ _ (ne_of_gt (hps s hsmem))
        have hvb2 : (|s.1| / prices.get_price b.2) * prices.get_price b.2 = |s.1| :=
          div_mul_cancel₀ _ (ne_of_gt (hpb b hbmem))
        have hvs2 : (|s.1| / prices.get_price s.2) * prices.get_price s.2 = |s.1| :=
          div_mul_cancel₀ _ (ne_of_gt (hps s hsmem))
        by_cases hgt : |s.1| > |b.1|
        · rw [exchange_loop_step_sell_gt prices tol buys sells acc b s buys' sells'
            hb hs hgt] at hi
          refine ih buys'
            (if (|s.1| - |b.1|) / |s.1| > tol then (-(|s.1| - |b.1|), s.2) :: sells'
             else sells') _ ?_ ?_ ?_ ?_ ?_ i hi
          · split <;> (try simp only [List.length_cons]) <;> omega
          · intro x hx y hy
            have hx' : x ∈ buys := hbsub x hx
            split at hy
            · rcases List.mem_cons.mp hy with rfl | hy'
              · exact hdisj x hx' s hsmem
              · exact hdisj x hx' y (hssub y hy')
            · exact hdisj x hx' y (hssub y hy)
          · intro x hx
            exact hpb x (hbsub x hx)
          · intro y hy
            split at hy
            · rcases List.mem_cons.mp hy with rfl | hy'
              · exact hps s hsmem
              · exact hps y (hssub y hy')
            · exact hps y (hssub y hy)
          · intro j hj
            rcases List.mem_append.mp hj with hj | hj
            · exact hacc j hj
            · rcases List.mem_singleton.mp hj with rfl
              intro _
              refine ⟨b.2, |b.1| / prices.get_price b.2, rfl, rfl, hne, ?_⟩
              rw [hvs, hvb]
        · rw [exchange_loop_step_sell_le prices tol buys sells acc b s buys' sells'
            hb hs hgt] at hi
          refine ih
            (if (|b.1| - |s.1|) / |b.1| > tol then (-(|b.1| - |s.1|), b.2) :: buys'
             else buys') sells' _ ?_ ?_ ?_ ?_ ?_ i hi
          · split <;> (try simp only [List.length_cons]) <;> omega
          · intro x hx y hy
            have hy' : y ∈ sells := hssub y hy
            split at hx
            · rcases List.mem_cons.mp hx with rfl | hx'
              · exact hdisj b hbmem y hy'
              · exact hdisj x (hbsub x hx') y hy'
            · exact hdisj x (hbsub x hx) y hy'
          · intro x hx
            split at hx
            · rcases List.mem_cons.mp hx with rfl | hx'
              · exact hpb b hbmem
              · exact hpb x (hbsub x hx')
            · exact hpb x (hbsub x hx)
          · intro y hy
            exact hps y (hssub y hy)
          · intro j hj
            rcases List.mem_append.mp hj with hj | hj
            · exact hacc j hj
            · rcases List.mem_singleton.mp hj with rfl
              intro _
              refine ⟨b.2, |s.1| / prices.get_price b.2, rfl, rfl, hne, ?_⟩
              rw [hvs2, hvb2]

theorem instructions_from_deltas_not_exchange {ds : List (Ticker × ℚ)} :
    ∀ i ∈ instructions_from_deltas ds,
      i.transaction_type ≠ TransactionType.EXCHANGE := by
  intro i hi
  obtain ⟨d, _, rfl⟩ := List.mem_map.mp hi
  by_cases h : d.2 > 0 <;> simp [h]

theorem mem_buys_heap {prices : PriceLookup} {deltas : List (Ticker × ℚ)}
    {x : ℚ × Ticker}
    (h : x ∈ deltas.filterMap (fun d =>
      if d.2 < 0 then none else some (-|d.2 * prices.get_price d.1|, d.1))) :
    ∃ q, (x.2, q) ∈ deltas ∧ ¬ q < 0 := by
  obtain ⟨d, hd, hx⟩ := List.mem_filterMap.mp h
  by_cases hq : d.2 < 0
  · rw [if_pos hq] at hx
    cases hx
  · rw [if_neg hq] at hx
    injection hx with hx
    subst hx
    exact ⟨d.2, by simpa using hd, hq⟩

theorem mem_sells_heap {prices : PriceLookup} {deltas : List (Ticker × ℚ)}
    {y : ℚ × Ticker}
    (h : y ∈ deltas.filterMap (fun d =>
      if d.2 < 0 then some (-|d.2 * prices.get_price d.1|, d.1) else none)) :
    ∃ q, (y.2, q) ∈ deltas ∧ q < 0 := by
  obtain ⟨d, hd, hy⟩ := List.mem_filterMap.mp h
  by_cases hq : d.2 < 0
  · rw [if_pos hq] at hy
    injection hy with hy
    subst hy
    exact ⟨d.2, by simpa using hd, hq⟩
  · rw [if_neg hq] at hy
    cases hy

theorem keysNodup_val_unique {m : List (Ticker × ℚ)} (h : keysNodup m)
    {t : Ticker} {a b : ℚ} (ha : (t, a) ∈ m) (hb : (t, b) ∈ m) : a = b := by
  induction m with
  | nil => cases ha
  | cons e m ih =>
    rw [keysNodup, List.map_cons, List.nodup_cons] at h
    rcases List.mem_cons.mp ha with ha' | ha' <;>
      rcases List.mem_cons.mp hb with hb' | hb'
    · rw [← hb'] at ha'
      injection ha' with _ h2
    · exfalso
      apply h.1
      rw [show e.1 = t from by rw [← ha']]
      exact List.mem_map.mpr ⟨(t, b), hb', rfl⟩
    · exfalso
      apply h.1
      rw [show e.1 = t from by rw [← hb']]
      exact List.mem_map.mpr ⟨(t, a), ha', rfl⟩
    · exact ih h.2 ha' hb'

theorem model_loop_keys_sublist (o : RebalanceOptions) (tol : ℚ)
    (live model : Portfolio) :
    ∀ (ts : List Ticker) (acc ds : List (Ticker × ℚ)),
    ts.foldlM (model_delta_step o tol live model) acc = Except.ok ds →
    (ds.map Prod.fst).Sublist (acc.map Prod.fst ++ ts) := by
  intro ts
  induction ts with
  | nil =>
    intro acc ds h
    simp only [List.foldlM_nil] at h
    replace h : (Except.ok acc : Except String _) = Except.ok ds := h
    injection h with h
    subst h
    simp
  | cons t ts ih =>
    intro acc ds h
    rw [List.foldlM_cons] at h
    cases hr : round_delta o (model.get_quantity t - live.get_quantity t) with
    | error e =>
      rw [model_delta_step_error o tol live model acc t e hr] at h
      replace h : (Except.error e : Except String (List (Ticker × ℚ)))
        = Except.ok ds := h
      cases h
    | ok δ =>
      rw [model_delta_step_ok o tol live model acc t δ hr] at h
      by_cases hlt : |δ| < tol
      · rw [if_pos hlt] at h
        replace h : ts.foldlM (model_delta_step o tol live model) acc
          = Except.ok ds := h
        refine (ih acc ds h).trans ?_
        exact List.Sublist.append_left (List.sublist_cons_self _ _) _
      · rw [if_neg hlt] at h
        replace h : ts.foldlM (model_delta_step o tol live model) (acc ++ [(t, δ)])
          = Except.ok ds := h
        have hs := ih (acc ++ [(t, δ)]) ds h
        have heq : ((acc ++ [(t, δ)]).map Prod.fst) ++ ts
            = acc.map Prod.fst ++ (t :: ts) := by simp
        rw [heq] at hs
        exact hs

theorem filterMap_keys_sublist (f : Ticker → Option (Ticker × ℚ))
    (hf : ∀ t d, f t = some d → d.1 = t) :
    ∀ l : List Ticker, ((l.filterMap f).map Prod.fst).Sublist l := by
  intro l
  induction l with
  | nil => simp
  | cons t ts ih =>
    rw [List.filterMap_cons]
    cases hf' : f t with
    | none => exact ih.trans (List.sublist_cons_self _ _)
    | some d =>
      rw [List.map_cons, hf t d hf']
      exact List.Sublist.cons₂ _ ih

theorem liquidation_deltas_mem {tol : ℚ} {live model : Portfolio}
    {d : Ticker × ℚ} (hd : d ∈ liquidation_deltas tol live model) :
    d.1 ∈ live.all_tickers ∧ model.contains_ticker d.1 = false := by
  obtain ⟨t, ht, hf⟩ := List.mem_filterMap.mp hd
  by_cases hc : model.contains_ticker t
  · rw [show (!model.contains_ticker t) = false by rw [hc]; rfl] at hf
    rw [if_neg (by simp)] at hf
    cases hf
  · rw [Bool.not_eq_true] at hc
    rw [show (!model.contains_ticker t) = true by rw [hc]; rfl] at hf
    rw [if_pos rfl] at hf
    by_cases hq : live.get_quantity t > tol
    · rw [if_pos hq] at hf
      injection hf with hf
      subst hf
      exact ⟨ht, hc⟩
    · rw [if_neg hq] at hf
      cases hf

theorem liquidation_keys_fn (tol : ℚ) (live model : Portfolio) :
    ∀ t d, (if !model.contains_ticker t then
        (if live.get_quantity t > tol
          then some (t, -(live.get_quantity t)) else none)
      else none) = some d → d.1 = t := by
  intro t d h
  by_cases hc : (!model.contains_ticker t) = true
  · rw [if_pos hc] at h
    by_cases hq : live.get_quantity t > tol
    · rw [if_pos hq] at h
      injection h with h
      rw [← h]
    · rw [if_neg hq] at h
      cases h
  · rw [if_neg hc] at h
    cases h

theorem run_deltas_keysNodup {r : PortfolioRebalancer} {live model : Portfolio}
    {ds : List (Ticker × ℚ)}
    (hlive : (live.positions.map Position.ticker).Nodup)
    (hmodel : (model.positions.map Position.ticker).Nodup)
    (hfold : model.all_tickers.foldlM
      (model_delta_step r.options r.tolerance live model) [] = Except.ok ds) :
    keysNodup (ds ++ liquidation_deltas r.tolerance live model) := by
  have hds : (ds.map Prod.fst).Sublist model.all_tickers := by
    have h := model_loop_keys_sublist r.options r.tolerance live model
      model.all_tickers [] ds hfold
    simpa using h
  have hliq : ((liquidation_deltas r.tolerance live model).map Prod.fst).Sublist
      live.all_tickers :=
    filterMap_keys_sublist _ (liquidation_keys_fn r.tolerance live model) _
  rw [keysNodup, List.map_append, List.nodup_append]
  refine ⟨hds.nodup hmodel, hliq.nodup hlive, ?_⟩
  intro t htds htliq
  obtain ⟨d, hd, rfl⟩ := List.mem_map.mp htliq
  have hc := (liquidation_deltas_mem hd).2
  have : d.1 ∈ model.all_tickers := hds.subset htds
  rw [contains_ticker_eq_false_iff] at hc
  exact hc this

/-- The dollar value of an instruction's sell side, counted only for
EXCHANGE instructions. -/
def exch_sell_value (prices : PriceLookup) (i : RebalanceInstruction) : ℚ :=
  if i.transaction_type = TransactionType.EXCHANGE then
    i.quantity * prices.get_price i.ticker
  else 0

/-- The dollar value of an instruction's buy (counter) side, counted only for
EXCHANGE instructions. -/
def exch_buy_value (prices : PriceLookup) (i : RebalanceInstruction) : ℚ :=
  if i.transaction_type = TransactionType.EXCHANGE then
    i.counter_quantity.getD 0 * prices.get_price (i.counter_ticker.getD i.ticker)
  else 0

theorem sum_exch_values_eq (prices : PriceLookup) :
    ∀ ins : List RebalanceInstruction, (∀ i ∈ ins, ExchOkay prices i) →
    (ins.map (exch_sell_value prices)).sum
      = (ins.map (exch_buy_value prices)).sum := by
  intro ins
  induction ins with
  | nil => intro _; rfl
  | cons i ins ih =>
    intro h
    rw [List.map_cons, List.map_cons, List.sum_cons, List.sum_cons,
      ih (fun j hj => h j (List.mem_cons_of_mem _ hj))]
    congr 1
    by_cases he : i.transaction_type = TransactionType.EXCHANGE
    · obtain ⟨ct, cq, h1, h2, _, h4⟩ := h i (List.mem_cons_self _ _) he
      rw [exch_sell_value, exch_buy_value, if_pos he, if_pos he, h1, h2]
      simpa using h4
    · rw [exch_sell_value, exch_buy_value, if_neg he, if_neg he]

theorem populate_exchange_trades_fst (prices : PriceLookup) (tol : ℚ)
    (deltas : List (Ticker × ℚ)) :
    (populate_exchange_trades prices tol deltas).1
      = (exchange_loop prices tol
          (deltas.filterMap (fun d => if d.2 < 0 then none
            else some (-|d.2 * prices.get_price d.1|, d.1)))
          (deltas.filterMap (fun d => if d.2 < 0 then
            some (-|d.2 * prices.get_price d.1|, d.1) else none))
          []).1 := rfl

/-- Every EXCHANGE instruction of a run over a delta map with unique keys and
positively-priced tickers is well-formed. -/
theorem populate_exchange_okay (prices : PriceLookup) (tol : ℚ)
    (deltas : List (Ticker × ℚ)) (hkeys : keysNodup deltas)
    (hp : ∀ t ∈ deltas.map Prod.fst, 0 < prices.get_price t) :
    ∀ i ∈ (populate_exchange_trades prices tol deltas).1, ExchOkay prices i := by
  intro i hi
  rw [populate_exchange_trades_fst] at hi
  refine exchange_loop_invariant prices tol _ _ _ [] le_rfl ?_ ?_ ?_ ?_ i hi
  · intro x hx y hy hxy
    obtain ⟨q, hq, hq0⟩ := mem_buys_heap hx
    obtain ⟨q', hq', hq0'⟩ := mem_sells_heap hy
    rw [hxy] at hq
    have heqq := keysNodup_val_unique hkeys hq hq'
    exact hq0 (heqq ▸ hq0')
  · intro x hx
    obtain ⟨q, hq, _⟩ := mem_buys_heap hx
    exact hp _ (List.mem_map.mpr ⟨(x.2, q), hq, rfl⟩)
  · intro y hy
    obtain ⟨q, hq, _⟩ := mem_sells_heap hy
    exact hp _ (List.mem_map.mpr ⟨(y.2, q), hq, rfl⟩)
  · intro i hi
    cases hi

/-- C5: in every run with share exchanges allowed, positive prices for the
held and targeted tickers, and well-formed (duplicate-free) portfolios, every
emitted EXCHANGE instruction names two distinct tickers, and the total dollar
value of the EXCHANGE instructions' sell sides equals the total of their buy
sides exactly — in particular it exceeds the buy-side total by no more than
the (nonnegative) tolerance. -/
theorem c5_exchange_invariants (r : PortfolioRebalancer) (live model : Portfolio)
    (hl : r.live_portfolio = some live) (hm : r.model_portfolio = some model)
    (hex : r.options.allow_share_exchanges = true)
    (hlive : (live.positions.map Position.ticker).Nodup)
    (hmodel : (model.positions.map Position.ticker).Nodup)
    (hp : ∀ t ∈ model.all_tickers ++ live.all_tickers, 0 < r.prices.get_price t)
    (htol : 0 ≤ r.tolerance)
    (ins : List RebalanceInstruction)
    (hins : build_rebalance_instructions r = Except.ok ins) :
    (∀ i ∈ ins, i.transaction_type = TransactionType.EXCHANGE →
      ∃ ct cq, i.counter_ticker = some ct ∧ i.counter_quantity = some cq
        ∧ ct ≠ i.ticker)
    ∧ (ins.map (exch_sell_value r.prices)).sum
        ≤ (ins.map (exch_buy_value r.prices)).sum + r.tolerance := by
  obtain ⟨ds, hfold, hshape⟩ := build_ok_destruct r live model hl hm ins hins
  rw [if_pos hex] at hshape
  subst hshape
  have hkeys : keysNodup (ds ++ liquidation_deltas r.tolerance live model) :=
    run_deltas_keysNodup hlive hmodel hfold
  have hkeysub : ∀ t ∈ (ds ++ liquidation_deltas r.tolerance live model).map
      Prod.fst, 0 < r.prices.get_price t := by
    intro t ht
    rw [List.map_append, List.mem_append] at ht
    rcases ht with ht | ht
    · refine hp t (List.mem_append_left _ ?_)
      have hs := model_loop_keys_sublist r.options r.tolerance live model
        model.all_tickers [] ds hfold
      simp only [List.map_nil, List.nil_append] at hs
      exact hs.subset ht
    · obtain ⟨d, hd, rfl⟩ := List.mem_map.mp ht
      exact hp d.1 (List.mem_append_right _ (liquidation_deltas_mem hd).1)
  have hok := populate_exchange_okay r.prices r.tolerance
    (ds ++ liquidation_deltas r.tolerance live model) hkeys hkeysub
  constructor
  · intro i hi he
    rcases List.mem_append.mp hi with hi | hi
    · obtain ⟨ct, cq, h1, h2, h3, _⟩ := hok i hi he
      exact ⟨ct, cq, h1, h2, h3⟩
    · exact absurd he (instructions_from_deltas_not_exchange i hi)
  · rw [List.map_append, List.map_append, List.sum_append, List.sum_append]
    have hz1 : ((instructions_from_deltas (populate_exchange_trades r.prices
        r.tolerance (ds ++ liquidation_deltas r.tolerance live model)).2).map
          (exch_sell_value r.prices)).sum = 0 := by
      apply List.sum_eq_zero
      intro x hx
      obtain ⟨i, hi, rfl⟩ := List.mem_map.mp hx
      rw [exch_sell_value, if_neg (instructions_from_deltas_not_exchange i hi)]
    have hz2 : ((instructions_from_deltas (populate_exchange_trades r.prices
        r.tolerance (ds ++ liquidation_deltas r.tolerance live model)).2).map
          (exch_buy_value r.prices)).sum = 0 := by
      apply List.sum_eq_zero
      intro x hx
      obtain ⟨i, hi, rfl⟩ := List.mem_map.mp hx
      rw [exch_buy_value, if_neg (instructions_from_deltas_not_exchange i hi)]
    rw [hz1, hz2, add_zero, add_zero]
    rw [sum_exch_values_eq r.prices _ hok]
    linarith

/-- The engine of the C5 witness: the test suite's exchange scenario. -/
def c5_rebalancer : PortfolioRebalancer :=
  ⟨⟨[("AAA", 100), ("BBB", 200)]⟩, ⟨3900, true, true, some RoundingBehavior.NEAREST⟩,
   DEFAULT_TOLERANCE, some ⟨[⟨"AAA", 19⟩, ⟨"BBB", 10⟩]⟩,
   some ⟨[⟨"AAA", 39/2⟩, ⟨"BBB", 39/4⟩]⟩⟩

/-- C5 witness: the invariant applied to the concrete exchange scenario,
whose single instruction is `EXCHANGE(BBB, 0.25, AAA, 0.5)`. -/
theorem c5_witness :
    ([⟨TransactionType.EXCHANGE, "BBB", 1/4, some "AAA", some (1/2)⟩].map
        (exch_sell_value (⟨[("AAA", 100), ("BBB", 200)]⟩ : PriceLookup))).sum
      ≤ ([⟨TransactionType.EXCHANGE, "BBB", 1/4, some "AAA", some (1/2)⟩].map
        (exch_buy_value (⟨[("AAA", 100), ("BBB", 200)]⟩ : PriceLookup))).sum
        + DEFAULT_TOLERANCE := by
  have h := (c5_exchange_invariants c5_rebalancer
    ⟨[⟨"AAA", 19⟩, ⟨"BBB", 10⟩]⟩ ⟨[⟨"AAA", 39/2⟩, ⟨"BBB", 39/4⟩]⟩
    rfl rfl rfl (by decide) (by decide)
    (by with_unfolding_all decide)
    (by norm_num [c5_rebalancer, DEFAULT_TOLERANCE])
    [⟨TransactionType.EXCHANGE, "BBB", 1/4, some "AAA", some (1/2)⟩]
    (by with_unfolding_all decide)).2
  exact h

/-- C3: one round of exchange matching.  (1) A pop returns an entry of the
heap that is minimal for the stored `(-value, ticker)` order — i.e. it has
the largest dollar value, ties broken by ticker — and removes exactly it.
(2) With popped buy `b` and sell `s`: if the sell value `|s.1|` exceeds the
buy value `|b.1|`, the round emits
`EXCHANGE(sellTicker, buyValue/sellPrice, buyTicker, buyValue/buyPrice)`,
consumes the buy side, and pushes the sell ticker back with residual value
`sellValue - buyValue` exactly when `residual/sellValue > tolerance`;
otherwise it emits
`EXCHANGE(sellTicker, sellValue/sellPrice, buyTicker, sellValue/buyPrice)`,
consumes the sell side, and pushes the buy ticker back with residual
`buyValue - sellValue` exactly when `residual/buyValue > tolerance`.
(3) When either side is empty the loop stops, and (4) the remaining entries
of the other side replace the delta map with quantity = residual value /
price, preserving sign (buys positive, sells negative). -/
theorem c3_exchange_round (prices : PriceLookup) (tol : ℚ) :
    (∀ (l : List (ℚ × Ticker)) (m : ℚ × Ticker) (rest : List (ℚ × Ticker)),
      heap_pop l = some (m, rest) →
      m ∈ l ∧ (∀ x ∈ l, tupLt x m = false) ∧ (∀ x ∈ rest, x ∈ l)
        ∧ rest.length + 1 = l.length)
    ∧ (∀ (buys sells : List (ℚ × Ticker)) (acc : List RebalanceInstruction)
        (b s : ℚ × Ticker) (buys' sells' : List (ℚ × Ticker)),
        heap_pop buys = some (b, buys') → heap_pop sells = some (s, sells') →
        (|s.1| > |b.1| →
          exchange_loop prices tol buys sells acc
            = exchange_loop prices tol buys'
                (if (|s.1| - |b.1|) / |s.1| > tol
                  then (-(|s.1| - |b.1|), s.2) :: sells' else sells')
                (acc ++ [⟨TransactionType.EXCHANGE, s.2,
                  |b.1| / prices.get_price s.2, some b.2,
                  some (|b.1| / prices.get_price b.2)⟩]))
        ∧ (¬ |s.1| > |b.1| →
          exchange_loop prices tol buys sells acc
            = exchange_loop prices tol
                (if (|b.1| - |s.1|) / |b.1| > tol
                  then (-(|b.1| - |s.1|), b.2) :: buys' else buys')
                sells'
                (acc ++ [⟨TransactionType.EXCHANGE, s.2,
                  |s.1| / prices.get_price s.2, some b.2,
                  some (|s.1| / prices.get_price b.2)⟩])))
    ∧ (∀ (buys sells : List (ℚ × Ticker)) (acc : List RebalanceInstruction),
        heap_pop buys = none ∨ heap_pop sells = none →
        exchange_loop prices tol buys sells acc = (acc, buys, sells))
    ∧ (∀ deltas : List (Ticker × ℚ),
        populate_exchange_trades prices tol deltas
          = (let buys := deltas.filterMap (fun d => if d.2 < 0 then none
               else some (-|d.2 * prices.get_price d.1|, d.1))
             let sells := deltas.filterMap (fun d => if d.2 < 0 then
               some (-|d.2 * prices.get_price d.1|, d.1) else none)
             let result := exchange_loop prices tol buys sells []
             (result.1,
              result.2.1.map (fun buy => (buy.2, |buy.1| / prices.get_price buy.2))
              ++ result.2.2.map (fun sell =>
                  (sell.2, -(|sell.1| / prices.get_price sell.2)))))) := by
  refine ⟨?_, ?_, ?_, ?_⟩
  · intro l m rest h
    exact ⟨heap_pop_mem h, heap_pop_min h, heap_pop_rest_mem h, heap_pop_length h⟩
  · intro buys sells acc b s buys' sells' hb hs
    exact ⟨fun hgt => exchange_loop_step_sell_gt prices tol buys sells acc
        b s buys' sells' hb hs hgt,
      fun hle => exchange_loop_step_sell_le prices tol buys sells acc
        b s buys' sells' hb hs hle⟩
  · intro buys sells acc h
    rcases h with h | h
    · exact exchange_loop_buys_empty prices tol buys sells acc h
    · exact exchange_loop_sells_empty prices tol buys sells acc h
  · intro deltas
    rfl

/-- C3 witness: one full round on concrete heaps — a 300-value sell of B
against a 100-value buy of A (unit prices) — followed by the terminal step:
the round emits `EXCHANGE(B, 100, A, 100)` and pushes B back with residual
value 200. -/
theorem c3_witness :
    exchange_loop (⟨[("A", 1), ("B", 1)]⟩ : PriceLookup) (1/100)
      [(-100, "A")] [(-300, "B")] []
      = ([⟨TransactionType.EXCHANGE, "B", 100, some "A", some 100⟩],
         [], [(-200, "B")]) := by
  have hstep := ((c3_exchange_round (⟨[("A", 1), ("B", 1)]⟩ : PriceLookup)
      (1/100)).2.1 [(-100, "A")] [(-300, "B")] [] (-100, "A") (-300, "B") [] []
      (by with_unfolding_all decide) (by with_unfolding_all decide)).1
      (by with_unfolding_all decide)
  rw [hstep]
  rw [(c3_exchange_round (⟨[("A", 1), ("B", 1)]⟩ : PriceLookup)
      (1/100)).2.2.1 [] _ _ (Or.inl rfl)]
  with_unfolding_all decide

/-!
## Convergence of a fractional-share run (C2)
-/

theorem ddGet_eq_zero_of_not_mem {m : List (Ticker × ℚ)} {t : Ticker}
    (h : t ∉ m.map Prod.fst) : ddGet m t = 0 := by
  induction m with
  | nil => rfl
  | cons e m ih =>
    rw [List.map_cons, List.mem_cons] at h
    push_neg at h
    rw [ddGet_cons, if_neg (fun hh => h.1 hh.symm)]
    exact ih h.2

theorem ddGet_of_mem_nodup {m : List (Ticker × ℚ)} (hnodup : keysNodup m)
    {t : Ticker} {v : ℚ} (hm : (t, v) ∈ m) : ddGet m t = v := by
  induction m with
  | nil => cases hm
  | cons e m ih =>
    rw [keysNodup, List.map_cons, List.nodup_cons] at hnodup
    rcases List.mem_cons.mp hm with he | hm'
    · rw [← he, ddGet_cons, if_pos rfl]
    · rw [ddGet_cons]
      have hne : e.1 ≠ t := by
        intro hh
        exact hnodup.1 (hh ▸ List.mem_map.mpr ⟨(t, v), hm', rfl⟩)
      rw [if_neg hne]
      exact ih hnodup.2 hm'

theorem deltaSum_eq_zero_of_not_mem {ds : List (Ticker × ℚ)} {t : Ticker}
    (h : t ∉ ds.map Prod.fst) : deltaSum ds t = 0 := by
  induction ds with
  | nil => rfl
  | cons e ds ih =>
    rw [List.map_cons, List.mem_cons] at h
    push_neg at h
    rw [deltaSum_cons, if_neg (fun hh => h.1 hh.symm), ih h.2, add_zero]

theorem deltaSum_eq_of_mem {ds : List (Ticker × ℚ)} (hnodup : keysNodup ds)
    {t : Ticker} {v : ℚ} (hm : (t, v) ∈ ds) : deltaSum ds t = v := by
  induction ds with
  | nil => cases hm
  | cons e ds ih =>
    rw [keysNodup, List.map_cons, List.nodup_cons] at hnodup
    rw [deltaSum_cons]
    rcases List.mem_cons.mp hm with he | hm'
    · rw [← he, if_pos rfl]
      have hz : deltaSum ds t = 0 := by
        apply deltaSum_eq_zero_of_not_mem
        rw [← he] at hnodup
        exact hnodup.1
      rw [hz, add_zero]
    · have hne : e.1 ≠ t := by
        intro hh
        exact hnodup.1 (hh ▸ List.mem_map.mpr ⟨(t, v), hm', rfl⟩)
      rw [if_neg hne, ih hnodup.2 hm', zero_add]

theorem get_quantity_eq_zero_of_not_mem {p : Portfolio} {u : Ticker}
    (h : u ∉ p.positions.map Position.ticker) : p.get_quantity u = 0 := by
  rw [Portfolio.get_quantity]
  cases hf : p.positions.find? (fun pos => pos.ticker == u) with
  | none => rfl
  | some pos =>
    exfalso
    have hmem := List.mem_of_find?_eq_some hf
    have hprop := List.find?_some hf
    rw [beq_iff_eq] at hprop
    exact h (hprop ▸ List.mem_map.mpr ⟨pos, hmem, rfl⟩)

/-- The initial rebalanced map of `build_rebalanced_portfolio`, read at any
ticker, gives the live quantity. -/
theorem ddGet_live_map (p : Portfolio) (u : Ticker) :
    ddGet (p.all_tickers.map (fun t => (t, p.get_quantity t))) u
      = p.get_quantity u := by
  rw [Portfolio.all_tickers, List.map_map]
  by_cases hmem : u ∈ p.positions.map Position.ticker
  · have key : ∀ ps : List Position,
        (∀ pos ∈ ps, pos ∈ p.positions) → u ∈ ps.map Position.ticker →
        ddGet (ps.map ((fun t => (t, p.get_quantity t)) ∘ Position.ticker)) u
          = p.get_quantity u := by
      intro ps
      induction ps with
      | nil => intro _ h; cases h
      | cons pos ps ih =>
        intro hsub hu
        rw [List.map_cons, ddGet_cons]
        by_cases he : pos.ticker = u
        · show (if pos.ticker = u then p.get_quantity pos.ticker else _) = _
          rw [if_pos he, he]
        · show (if pos.ticker = u then p.get_quantity pos.ticker else _) = _
          rw [if_neg he]
          rcases List.mem_cons.mp (List.mem_map.mp hu).choose_spec.1 with h1 | h1
          · exact ih (fun q hq => hsub q (List.mem_cons_of_mem _ hq)) (by
              rcases List.mem_map.mp hu with ⟨q, hq, rfl⟩
              rcases List.mem_cons.mp hq with rfl | hq'
              · exact absurd rfl he
              · exact List.mem_map.mpr ⟨q, hq', rfl⟩)
          · exact ih (fun q hq => hsub q (List.mem_cons_of_mem _ hq)) (by
              rcases List.mem_map.mp hu with ⟨q, hq, rfl⟩
              rcases List.mem_cons.mp hq with rfl | hq'
              · exact absurd rfl he
              · exact List.mem_map.mpr ⟨q, hq', rfl⟩)
    exact key p.positions (fun _ h => h) hmem
  · rw [get_quantity_eq_zero_of_not_mem hmem]
    apply ddGet_eq_zero_of_not_mem
    intro hc
    apply hmem
    rw [List.map_map] at hc
    obtain ⟨pos, hpos, he⟩ := List.mem_map.mp hc
    exact List.mem_map.mpr ⟨pos, hpos, he⟩

theorem keys_live_map (p : Portfolio) :
    (p.all_tickers.map (fun t => (t, p.get_quantity t))).map Prod.fst
      = p.positions.map Position.ticker := by
  rw [Portfolio.all_tickers, List.map_map, List.map_map]
  rfl

/-- Reading the portfolio built from the nonzero entries of a unique-keyed
map recovers the map's (defaulted) lookup. -/
theorem get_quantity_filtered (m : List (Ticker × ℚ)) (hnodup : keysNodup m)
    (u : Ticker) :
    Portfolio.get_quantity
        ⟨(m.filter (fun e => e.2 ≠ 0)).map (fun e => ⟨e.1, e.2⟩)⟩ u
      = ddGet m u := by
  induction m with
  | nil => rfl
  | cons e m ih =>
    rw [keysNodup, List.map_cons, List.nodup_cons] at hnodup
    rw [ddGet_cons]
    by_cases hz : e.2 ≠ 0
    · rw [List.filter_cons_of_pos (by simpa using hz), List.map_cons,
        get_quantity_cons]
      show (if e.1 = u then e.2 else _) = _
      by_cases he : e.1 = u
      · rw [if_pos he, if_pos he]
      · rw [if_neg he, if_neg he]
        exact ih hnodup.2
    · rw [List.filter_cons_of_neg (by simpa using hz)]
      push_neg at hz
      by_cases he : e.1 = u
      · rw [if_pos he, hz]
        rw [ih hnodup.2]
        rw [ddGet_eq_zero_of_not_mem (he ▸ hnodup.1)]
      · rw [if_neg he]
        exact ih hnodup.2

/-- A ticker of the filtered portfolio has a nonzero value in the map and is
one of the map's keys. -/
theorem mem_filtered_tickers {m : List (Ticker × ℚ)} (hnodup : keysNodup m)
    {u : Ticker}
    (h : u ∈ (((m.filter (fun e => e.2 ≠ 0)).map
      (fun e => (⟨e.1, e.2⟩ : Position))).map Position.ticker)) :
    ddGet m u ≠ 0 ∧ u ∈ m.map Prod.fst := by
  obtain ⟨pos, hpos, hticker⟩ := List.mem_map.mp h
  obtain ⟨e, he, rfl⟩ := List.mem_map.mp hpos
  have hmem := List.mem_of_mem_filter he
  have hval : ¬ (e.2 = 0) := by
    have := List.of_mem_filter he
    simpa using this
  have hkey : (e.1, e.2) ∈ m := by simpa using hmem
  constructor
  · rw [show u = e.1 from by rw [← hticker]]
    rw [ddGet_of_mem_nodup hnodup hkey]
    exact hval
  · rw [show u = e.1 from by rw [← hticker]]
    exact List.mem_map.mpr ⟨e, hmem, rfl⟩

/-- The value stored by a liquidation delta, and the tolerance bound that
admitted it. -/
theorem liquidation_deltas_mem_val {tol : ℚ} {live model : Portfolio}
    {d : Ticker × ℚ} (hd : d ∈ liquidation_deltas tol live model) :
    d.2 = -(live.get_quantity d.1) ∧ live.get_quantity d.1 > tol := by
  obtain ⟨t, _, hf⟩ := List.mem_filterMap.mp hd
  by_cases hc : (!model.contains_ticker t) = true
  · rw [if_pos hc] at hf
    by_cases hq : live.get_quantity t > tol
    · rw [if_pos hq] at hf
      injection hf with hf
      subst hf
      exact ⟨rfl, hq⟩
    · rw [if_neg hq] at hf
      cases hf
  · rw [if_neg hc] at hf
    cases hf

/-- Membership characterization of the model part of the delta map. -/
theorem mem_model_deltas {tol : ℚ} {live model : Portfolio} {ρ : ℚ → ℚ}
    {d : Ticker × ℚ}
    (hd : d ∈ model.all_tickers.filterMap (fun t =>
      let δ := ρ (model.get_quantity t - live.get_quantity t)
      if |δ| < tol then none else some (t, δ))) :
    d.1 ∈ model.all_tickers
      ∧ d.2 = ρ (model.get_quantity d.1 - live.get_quantity d.1)
      ∧ ¬ |d.2| < tol := by
  obtain ⟨t, ht, hf⟩ := List.mem_filterMap.mp hd
  by_cases hlt : |ρ (model.get_quantity t - live.get_quantity t)| < tol
  · rw [if_pos hlt] at hf
    cases hf
  · rw [if_neg hlt] at hf
    injection hf with hf
    subst hf
    exact ⟨ht, rfl, hlt⟩

/-- Converse membership for the model part of the delta map. -/
theorem mem_model_deltas_of {tol : ℚ} {live model : Portfolio} {ρ : ℚ → ℚ}
    {t : Ticker} (ht : t ∈ model.all_tickers)
    (hlt : ¬ |ρ (model.get_quantity t - live.get_quantity t)| < tol) :
    (t, ρ (model.get_quantity t - live.get_quantity t))
      ∈ model.all_tickers.filterMap (fun t =>
        let δ := ρ (model.get_quantity t - live.get_quantity t)
        if |δ| < tol then none else some (t, δ)) := by
  apply List.mem_filterMap.mpr
  exact ⟨t, ht, by rw [if_neg hlt]⟩

/-- `build_rebalanced_portfolio` as the zero-filtering of the instruction fold
over the live holdings. -/
theorem build_rebalanced_eq (r : PortfolioRebalancer) (live : Portfolio)
    (hl : r.live_portfolio = some live) (ins : List RebalanceInstruction)
    (hins : build_rebalance_instructions r = Except.ok ins) :
    build_rebalanced_portfolio r
      = portfolio_of_rebalanced (ins.foldl apply_instruction
          (live.all_tickers.map (fun t => (t, live.get_quantity t)))) := by
  rw [build_rebalanced_portfolio, hins, hl]
  rfl

/-- The delta map of a run has no duplicate keys (for any rounding map). -/
theorem run_deltas_keysNodup' (tol : ℚ) (live model : Portfolio) (ρ : ℚ → ℚ)
    (hlive : (live.positions.map Position.ticker).Nodup)
    (hmodel : (model.positions.map Position.ticker).Nodup) :
    keysNodup (run_deltas tol live model ρ) := by
  have hds : ((model.all_tickers.filterMap (fun t =>
      let δ := ρ (model.get_quantity t - live.get_quantity t)
      if |δ| < tol then none else some (t, δ))).map Prod.fst).Sublist
      model.all_tickers := by
    apply filterMap_keys_sublist
    intro t d h
    by_cases hlt : |ρ (model.get_quantity t - live.get_quantity t)| < tol
    · rw [if_pos hlt] at h
      cases h
    · rw [if_neg hlt] at h
      injection h with h
      rw [← h]
  have hliq : ((liquidation_deltas tol live model).map Prod.fst).Sublist
      live.all_tickers :=
    filterMap_keys_sublist _ (liquidation_keys_fn tol live model) _
  rw [run_deltas, keysNodup, List.map_append, List.nodup_append]
  refine ⟨hds.nodup hmodel, hliq.nodup hlive, ?_⟩
  intro t htds htliq
  obtain ⟨d, hd, rfl⟩ := List.mem_map.mp htliq
  have hc := (liquidation_deltas_mem hd).2
  rw [contains_ticker_eq_false_iff] at hc
  exact hc (hds.subset htds)

set_option maxHeartbeats 2000000 in
/-- After one fractional-share run, every delta the validator recomputes (at
a second-pass tolerance at least the first-pass one) is below the second-pass
tolerance: the recomputed delta map is empty. -/
theorem c2_second_pass_empty (tol tol2 : ℚ) (live model : Portfolio)
    (htol : tol ≤ tol2) (hpos : 0 < tol2)
    (hlive : (live.positions.map Position.ticker).Nodup)
    (hmodel : (model.positions.map Position.ticker).Nodup) :
    run_deltas tol2
      ⟨(((instructions_from_deltas (run_deltas tol live model (fun δ => δ))).foldl
          apply_instruction
          (live.all_tickers.map (fun t => (t, live.get_quantity t)))).filter
          (fun e => e.2 ≠ 0)).map (fun e => (⟨e.1, e.2⟩ : Position))⟩
      model (fun δ => δ)
      = [] := by
  set ds := run_deltas tol live model (fun δ => δ) with hds
  set R0 := live.all_tickers.map (fun t => (t, live.get_quantity t)) with hR0
  set R := (instructions_from_deltas ds).foldl apply_instruction R0 with hR
  set P : Portfolio :=
    ⟨(R.filter (fun e => e.2 ≠ 0)).map (fun e => (⟨e.1, e.2⟩ : Position))⟩ with hP
  have hkeys : keysNodup ds := by
    rw [hds]
    exact run_deltas_keysNodup' tol live model _ hlive hmodel
  have hR0keys : R0.map Prod.fst = live.positions.map Position.ticker := by
    rw [hR0]
    exact keys_live_map live
  have hR0nodup : keysNodup R0 := by
    rw [keysNodup, hR0keys]
    exact hlive
  have hRnodup : keysNodup R := by
    rw [hR]
    exact keysNodup_applyAll ds R0 hR0nodup
  have hPget : ∀ u, P.get_quantity u = ddGet R u := by
    intro u
    rw [hP]
    exact get_quantity_filtered R hRnodup u
  have hRget : ∀ u, ddGet R u = live.get_quantity u + deltaSum ds u := by
    intro u
    rw [hR, ddGet_applyAll ds R0 u, hR0, ddGet_live_map]
  have hPmem : ∀ u ∈ P.all_tickers, ddGet R u ≠ 0 ∧ u ∈ R.map Prod.fst := by
    intro u hu
    rw [hP] at hu
    exact mem_filtered_tickers hRnodup hu
  clear_value P R R0 ds
  rw [run_deltas, List.append_eq_nil]
  constructor
  · rw [List.filterMap_eq_nil_iff]
    intro t ht
    show (if |model.get_quantity t - P.get_quantity t| < tol2 then none
      else some (t, model.get_quantity t - P.get_quantity t)) = none
    rw [if_pos]
    by_cases hmem : t ∈ ds.map Prod.fst
    · obtain ⟨d, hd, rfl⟩ := List.mem_map.mp hmem
      rw [hds, run_deltas] at hd
      rcases List.mem_append.mp hd with hd' | hd'
      · obtain ⟨_, hval, _⟩ := @mem_model_deltas tol live model (fun δ => δ) d hd'
        have hsum : deltaSum ds d.1 = d.2 :=
          deltaSum_eq_of_mem hkeys
            (show (d.1, d.2) ∈ ds from by rw [hds, run_deltas]; exact hd)
        rw [hPget, hRget, hsum, hval]
        show |model.get_quantity d.1 - (live.get_quantity d.1
          + (model.get_quantity d.1 - live.get_quantity d.1))| < tol2
        rw [show model.get_quantity d.1 - (live.get_quantity d.1
          + (model.get_quantity d.1 - live.get_quantity d.1)) = 0 by ring]
        simpa using hpos
      · have hc := (liquidation_deltas_mem hd').2
        rw [contains_ticker_eq_false_iff] at hc
        exact absurd (by rw [Portfolio.all_tickers] at ht; exact ht) hc
    · have hsum : deltaSum ds t = 0 := deltaSum_eq_zero_of_not_mem hmem
      rw [hPget, hRget, hsum, add_zero]
      have hlt : |model.get_quantity t - live.get_quantity t| < tol := by
        by_contra hc
        apply hmem
        have := @mem_model_deltas_of tol live model (fun δ => δ) t ht hc
        apply List.mem_map.mpr
        refine ⟨(t, model.get_quantity t - live.get_quantity t), ?_, rfl⟩
        rw [hds, run_deltas]
        exact List.mem_append_left _ this
      exact lt_of_lt_of_le hlt htol
  · rw [liquidation_deltas, List.filterMap_eq_nil_iff]
    intro u hu
    show (if !model.contains_ticker u then
        (if P.get_quantity u > tol2 then some (u, -(P.get_quantity u)) else none)
      else none) = none
    by_cases hc : model.contains_ticker u = true
    · rw [hc]
      rfl
    · rw [Bool.not_eq_true] at hc
      rw [hc]
      show (if true = true then
        (if P.get_quantity u > tol2 then some (u, -(P.get_quantity u)) else none)
        else none) = none
      obtain ⟨hnz, hkeyR⟩ := hPmem u hu
      have hhk : hasKey R u = true := hasKey_iff.mpr hkeyR
      rw [hR, hasKey_applyAll ds R0 u, Bool.or_eq_true] at hhk
      have hnotds : u ∉ ds.map Prod.fst := by
        intro hmem
        obtain ⟨d, hd, rfl⟩ := List.mem_map.mp hmem
        rw [hds, run_deltas] at hd
        rcases List.mem_append.mp hd with hd' | hd'
        · obtain ⟨hdm, _, _⟩ := @mem_model_deltas tol live model (fun δ => δ) d hd'
          rw [← contains_ticker_iff] at hdm
          rw [hdm] at hc
          cases hc
        · obtain ⟨hval, _⟩ := liquidation_deltas_mem_val hd'
          have hsum : deltaSum ds d.1 = d.2 :=
            deltaSum_eq_of_mem hkeys
              (show (d.1, d.2) ∈ ds from by rw [hds, run_deltas]; exact hd)
          apply hnz
          rw [hRget, hsum, hval]
          ring
      have hsum : deltaSum ds u = 0 := deltaSum_eq_zero_of_not_mem hnotds
      have hkey0 : hasKey R0 u = true := by
        rcases hhk with h | h
        · exact h
        · exfalso
          apply hnotds
          rw [List.any_eq_true] at h
          obtain ⟨d, hd, he⟩ := h
          rw [beq_iff_eq] at he
          exact List.mem_map.mpr ⟨d, hd, he⟩
      have hulive : u ∈ live.all_tickers := by
        have hmem := hasKey_iff.mp hkey0
        rw [hR0keys] at hmem
        rw [Portfolio.all_tickers]
        exact hmem
      have hle : live.get_quantity u ≤ tol := by
        by_contra hgt
        push_neg at hgt
        apply hnotds
        have hmem := mem_liquidation_deltas hulive hc hgt
        apply List.mem_map.mpr
        refine ⟨(u, -(live.get_quantity u)), ?_, rfl⟩
        rw [hds, run_deltas]
        exact List.mem_append_right _ hmem
      have hng : ¬ (P.get_quantity u > tol2) := by
        rw [hPget, hRget, hsum, add_zero]
        exact not_lt.mpr (hle.trans htol)
      rw [if_pos rfl, if_neg hng]

set_option maxHeartbeats 1000000 in
/-- C2: with fractional shares allowed, share exchanges disabled, the engine
tolerance at most the validator's `DEFAULT_TOLERANCE`, and duplicate-free live
and model portfolios, one `build_rebalanced_portfolio` pass followed by
`build_rebalance_instructions` against the same model yields zero instructions,
so `validate` succeeds. -/
theorem c2_validate_converges (r : PortfolioRebalancer) (live model : Portfolio)
    (hl : r.live_portfolio = some live) (hm : r.model_portfolio = some model)
    (hfrac : r.options.allow_fractional_shares = true)
    (hex : r.options.allow_share_exchanges = false)
    (htol : r.tolerance ≤ DEFAULT_TOLERANCE)
    (hlive : (live.positions.map Position.ticker).Nodup)
    (hmodel : (model.positions.map Position.ticker).Nodup) :
    validate r = Except.ok () := by
  have hbuild := build_eq r live model hl hm (fun δ => δ) (round_delta_fractional hfrac)
  rw [if_neg (by simp [hex])] at hbuild
  set ds := run_deltas r.tolerance live model (fun δ => δ) with hds
  set R := (instructions_from_deltas ds).foldl apply_instruction
    (live.all_tickers.map (fun t => (t, live.get_quantity t))) with hR
  set P : Portfolio :=
    ⟨(R.filter (fun e => e.2 ≠ 0)).map (fun e => (⟨e.1, e.2⟩ : Position))⟩ with hPdef
  have hRnodup : keysNodup R := by
    rw [hR]
    exact keysNodup_applyAll ds _ (by rw [keysNodup, keys_live_map]; exact hlive)
  have hP : build_rebalanced_portfolio r = Except.ok P := by
    rw [build_rebalanced_eq r live hl _ hbuild, ← hR, portfolio_of_rebalanced,
      portfolio_of_rebalanced_go R Portfolio.empty
        (by simp only [Portfolio.empty, List.map_nil, List.nil_append]; exact hRnodup)]
    rw [hPdef]
    rfl
  have hvv : validate_validator r
      = Except.ok ⟨r.prices, r.options, DEFAULT_TOLERANCE, some P, some model⟩ := by
    rw [validate_validator, hP, hm]
    rfl
  have hrun : run_deltas DEFAULT_TOLERANCE P model (fun δ => δ) = [] := by
    rw [hPdef, hR, hds]
    exact c2_second_pass_empty r.tolerance DEFAULT_TOLERANCE live model htol
      (by norm_num [DEFAULT_TOLERANCE]) hlive hmodel
  have hbuild2 : build_rebalance_instructions
      (⟨r.prices, r.options, DEFAULT_TOLERANCE, some P, some model⟩ : PortfolioRebalancer)
      = Except.ok [] := by
    have h2 := build_eq
      ⟨r.prices, r.options, DEFAULT_TOLERANCE, some P, some model⟩
      P model rfl rfl (fun δ => δ) (round_delta_fractional hfrac)
    rw [if_neg (by simp [hex])] at h2
    replace h2 : build_rebalance_instructions
        (⟨r.prices, r.options, DEFAULT_TOLERANCE, some P, some model⟩ : PortfolioRebalancer)
        = Except.ok (instructions_from_deltas
            (run_deltas DEFAULT_TOLERANCE P model (fun δ => δ))) := h2
    rw [hrun] at h2
    exact h2
  rw [validate, hvv]
  show (do
    let instructions ← build_rebalance_instructions
      (⟨r.prices, r.options, DEFAULT_TOLERANCE, some P, some model⟩ : PortfolioRebalancer)
    if instructions.length > 0 then
      Except.error (didNotConvergeMsg instructions.length)
    else
      pure ()) = Except.ok ()
  rw [hbuild2]
  rfl

/-- C2 counterexample: with fractional shares allowed but share exchanges also
enabled, validate raises.  Live holds 1000 shares of B, the model wants 991
shares of A, all prices 1: the single EXCHANGE trade silently drops the
9-dollar sell residual (9/1000 = 0.009 ≤ 0.01 of the popped value), leaving 9
shares of B that the validator — whose tolerance is absolute — flags, so the
rebalance does not converge even though allow_fractional_shares is true. -/
theorem c2_counterexample :
    (⟨⟨[("A", 1), ("B", 1)]⟩, ⟨0, true, true, none⟩, DEFAULT_TOLERANCE,
        some ⟨[⟨"B", 1000⟩]⟩, some ⟨[⟨"A", 991⟩]⟩⟩
      : PortfolioRebalancer).options.allow_fractional_shares = true
    ∧ validate (⟨⟨[("A", 1), ("B", 1)]⟩, ⟨0, true, true, none⟩, DEFAULT_TOLERANCE,
        some ⟨[⟨"B", 1000⟩]⟩, some ⟨[⟨"A", 991⟩]⟩⟩ : PortfolioRebalancer)
      = Except.error (didNotConvergeMsg 1) := by
  constructor
  · rfl
  · with_unfolding_all decide

/-- C2 witness: a concrete two-ticker engine (fractional shares on, exchanges
off, default tolerance, live 15/15 vs model 20/10) satisfies every hypothesis
of `c2_validate_converges`, and its `validate` run succeeds. -/
theorem c2_witness :
    (⟨⟨[("A", 1), ("B", 1)]⟩, ⟨0, false, true, none⟩, DEFAULT_TOLERANCE,
        some ⟨[⟨"A", 15⟩, ⟨"B", 15⟩]⟩, some ⟨[⟨"A", 20⟩, ⟨"B", 10⟩]⟩⟩
      : PortfolioRebalancer).live_portfolio = some ⟨[⟨"A", 15⟩, ⟨"B", 15⟩]⟩
    ∧ (⟨⟨[("A", 1), ("B", 1)]⟩, ⟨0, false, true, none⟩, DEFAULT_TOLERANCE,
        some ⟨[⟨"A", 15⟩, ⟨"B", 15⟩]⟩, some ⟨[⟨"A", 20⟩, ⟨"B", 10⟩]⟩⟩
      : PortfolioRebalancer).model_portfolio = some ⟨[⟨"A", 20⟩, ⟨"B", 10⟩]⟩
    ∧ (⟨⟨[("A", 1), ("B", 1)]⟩, ⟨0, false, true, none⟩, DEFAULT_TOLERANCE,
        some ⟨[⟨"A", 15⟩, ⟨"B", 15⟩]⟩, some ⟨[⟨"A", 20⟩, ⟨"B", 10⟩]⟩⟩
      : PortfolioRebalancer).options.allow_fractional_shares = true
    ∧ (⟨⟨[("A", 1), ("B", 1)]⟩, ⟨0, false, true, none⟩, DEFAULT_TOLERANCE,
        some ⟨[⟨"A", 15⟩, ⟨"B", 15⟩]⟩, some ⟨[⟨"A", 20⟩, ⟨"B", 10⟩]⟩⟩
      : PortfolioRebalancer).options.allow_share_exchanges = false
    ∧ (⟨⟨[("A", 1), ("B", 1)]⟩, ⟨0, false, true, none⟩, DEFAULT_TOLERANCE,
        some ⟨[⟨"A", 15⟩, ⟨"B", 15⟩]⟩, some ⟨[⟨"A", 20⟩, ⟨"B", 10⟩]⟩⟩
      : PortfolioRebalancer).tolerance ≤ DEFAULT_TOLERANCE
    ∧ ((⟨[⟨"A", 15⟩, ⟨"B", 15⟩]⟩ : Portfolio).positions.map Position.ticker).Nodup
    ∧ ((⟨[⟨"A", 20⟩, ⟨"B", 10⟩]⟩ : Portfolio).positions.map Position.ticker).Nodup
    ∧ validate (⟨⟨[("A", 1), ("B", 1)]⟩, ⟨0, false, true, none⟩, DEFAULT_TOLERANCE,
        some ⟨[⟨"A", 15⟩, ⟨"B", 15⟩]⟩, some ⟨[⟨"A", 20⟩, ⟨"B", 10⟩]⟩⟩
      : PortfolioRebalancer) = Except.ok () :=
  ⟨rfl, rfl, rfl, rfl, le_refl DEFAULT_TOLERANCE, by decide, by decide,
    c2_validate_converges _ ⟨[⟨"A", 15⟩, ⟨"B", 15⟩]⟩ ⟨[⟨"A", 20⟩, ⟨"B", 10⟩]⟩
      rfl rfl rfl rfl (le_refl DEFAULT_TOLERANCE) (by decide) (by decide)⟩
